import Mathlib

/-!
Verification of the knowledge-graph storage and query engine
(`app/crud.py`, `app/models.py`, `app/tools/shared.py`, `app/vector_store.py`).

The embedding models JSON-compatible property values with `Value`, property
maps with insertion-ordered association lists (mirroring Python dicts as they
occur here: unique keys, insertion order), Pydantic per-type validation with
`validateProps`, and the SQLAlchemy-backed store with an explicit `DB` state
threaded through each CRUD operation.  Machine datetimes are abstracted to a
`Nat` tick (`Value.vdt`); `datetime.now()` becomes an explicit `now` argument.
Fallible operations return `Except Err`.
-/

/-- JSON-compatible property values as they occur in this code base:
strings, lists of strings (tags), string-keyed maps (Person.metadata),
datetimes (abstracted to a tick), and null. -/
inductive Value where
  | vstr (s : String)
  | vlist (xs : List String)
  | vmap (m : List (String × Value))
  | vdt (t : Nat)
  | vnull

/-- A property dictionary: insertion-ordered association list. -/
abbrev PropMap := List (String × Value)

/-- `d.get(k)` on a dict: first (and, for genuine dicts, only) binding. -/
def pmGet : PropMap → String → Option Value
  | [], _ => none
  | p :: rest, k => if p.1 = k then some p.2 else pmGet rest k

/-- `d[k] = v` on a dict: overwrite in place if the key is present,
append otherwise. -/
def pmSet (m : PropMap) (k : String) (v : Value) : PropMap :=
  if m.any (fun p => p.1 == k) then
    m.map (fun p => if p.1 = k then (k, v) else p)
  else
    m ++ [(k, v)]

/-- `d.update(u)` on a dict: set every binding of `u` in order. -/
def pmUpdate (m u : PropMap) : PropMap :=
  u.foldl (fun acc p => pmSet acc p.1 p.2) m

/-- The keys of a property dictionary. -/
def pmKeys (m : PropMap) : List String := m.map (fun p => p.1)

/-- The four node types of `app/models.py` (`AnyNode`). -/
inductive NodeType where
  | task
  | note
  | person
  | project
deriving DecidableEq, Repr

/-- Errors raised by the engine (`ValueError` / Pydantic `ValidationError` /
Python `TypeError`), distinguished by their cause. -/
inductive Err where
  | invalidProperties (field : String)
  | sourceNotFound (id : String)
  | targetNotFound (id : String)
  | nodeNotFound (id : String)
  | typeError
deriving DecidableEq, Repr

/-- Allowed `Task.status` values (`models.py` line 23). -/
def taskStatuses : List String := ["todo", "in_progress", "in_review", "cancelled", "done"]

/-- Allowed `Project.status` values (`models.py` line 68). -/
def projectStatuses : List String := ["active", "archived"]

/-- Required string field (Pydantic `description: str` etc.): present and a
string, returned verbatim; anything else is a validation error. -/
def checkReqStr (m : PropMap) (f : String) : Except Err Value :=
  match pmGet m f with
  | some (Value.vstr s) => Except.ok (Value.vstr s)
  | some _ => Except.error (Err.invalidProperties f)
  | none => Except.error (Err.invalidProperties f)

/-- Enum field with a default (`status: Literal[...] = dflt`). -/
def checkEnum (m : PropMap) (f : String) (allowed : List String) (dflt : String) :
    Except Err Value :=
  match pmGet m f with
  | none => Except.ok (Value.vstr dflt)
  | some (Value.vstr s) =>
      if s ∈ allowed then Except.ok (Value.vstr s) else Except.error (Err.invalidProperties f)
  | some _ => Except.error (Err.invalidProperties f)

/-- `tags: list[str] = []`. -/
def checkTags (m : PropMap) : Except Err Value :=
  match pmGet m "tags" with
  | none => Except.ok (Value.vlist [])
  | some (Value.vlist l) => Except.ok (Value.vlist l)
  | some _ => Except.error (Err.invalidProperties "tags")

/-- Datetime field defaulting to `datetime.now(...)`
(`created_at` / `modified_at`). -/
def checkDt (m : PropMap) (f : String) (now : Nat) : Except Err Value :=
  match pmGet m f with
  | none => Except.ok (Value.vdt now)
  | some (Value.vdt t) => Except.ok (Value.vdt t)
  | some _ => Except.error (Err.invalidProperties f)

/-- `due_date: datetime | None = None`. -/
def checkDtOrNull (m : PropMap) (f : String) : Except Err Value :=
  match pmGet m f with
  | none => Except.ok Value.vnull
  | some Value.vnull => Except.ok Value.vnull
  | some (Value.vdt t) => Except.ok (Value.vdt t)
  | some _ => Except.error (Err.invalidProperties f)

/-- `metadata: dict[str, Any] = {}`. -/
def checkMeta (m : PropMap) : Except Err Value :=
  match pmGet m "metadata" with
  | none => Except.ok (Value.vmap [])
  | some (Value.vmap d) => Except.ok (Value.vmap d)
  | some _ => Except.error (Err.invalidProperties "metadata")

/-- The declared field list of each Pydantic properties model, in declaration
(= `model_dump`) order (`models.py`). -/
def schemaFields : NodeType → List String
  | NodeType.task => ["description", "status", "tags", "created_at", "modified_at", "due_date"]
  | NodeType.note => ["title", "content", "tags", "created_at", "modified_at"]
  | NodeType.person => ["name", "tags", "metadata", "created_at", "modified_at"]
  | NodeType.project => ["name", "description", "tags", "status", "created_at", "modified_at"]

/-- `PROPERTIES_MODELS[node_type](**properties).model_dump(mode="json")`:
per-type Pydantic validation.  Unknown top-level keys are ignored (Pydantic's
default `extra="ignore"`), missing optional fields are defaulted, required
fields and enum membership are checked; the dumped dictionary holds exactly
the declared fields in declaration order. -/
def validateProps (t : NodeType) (now : Nat) (m : PropMap) : Except Err PropMap :=
  match t with
  | NodeType.task => do
      let d ← checkReqStr m "description"
      let st ← checkEnum m "status" taskStatuses "todo"
      let tg ← checkTags m
      let ca ← checkDt m "created_at" now
      let ma ← checkDt m "modified_at" now
      let dd ← checkDtOrNull m "due_date"
      Except.ok [("description", d), ("status", st), ("tags", tg),
                 ("created_at", ca), ("modified_at", ma), ("due_date", dd)]
  | NodeType.note => do
      let ti ← checkReqStr m "title"
      let co ← checkReqStr m "content"
      let tg ← checkTags m
      let ca ← checkDt m "created_at" now
      let ma ← checkDt m "modified_at" now
      Except.ok [("title", ti), ("content", co), ("tags", tg),
                 ("created_at", ca), ("modified_at", ma)]
  | NodeType.person => do
      let na ← checkReqStr m "name"
      let tg ← checkTags m
      let me ← checkMeta m
      let ca ← checkDt m "created_at" now
      let ma ← checkDt m "modified_at" now
      Except.ok [("name", na), ("tags", tg), ("metadata", me),
                 ("created_at", ca), ("modified_at", ma)]
  | NodeType.project => do
      let na ← checkReqStr m "name"
      let d ← checkReqStr m "description"
      let tg ← checkTags m
      let st ← checkEnum m "status" projectStatuses "active"
      let ca ← checkDt m "created_at" now
      let ma ← checkDt m "modified_at" now
      Except.ok [("name", na), ("description", d), ("tags", tg),
                 ("status", st), ("created_at", ca), ("modified_at", ma)]

/-- A stored node row (`NodeModel`): id, type and validated properties. -/
structure NodeRec where
  id : String
  type : NodeType
  properties : PropMap

/-- A stored edge row (`EdgeModel`). -/
structure EdgeRec where
  id : String
  source_id : String
  target_id : String
  label : String
deriving DecidableEq, Repr

/-- The relational store: the nodes table and the edges table, in row order. -/
structure DB where
  nodes : List NodeRec
  edges : List EdgeRec

/-- The empty store. -/
def emptyDB : DB := ⟨[], []⟩

example : validateProps NodeType.task 7 [("description", Value.vstr "x")] =
    Except.ok [("description", Value.vstr "x"), ("status", Value.vstr "todo"),
               ("tags", Value.vlist []), ("created_at", Value.vdt 7),
               ("modified_at", Value.vdt 7), ("due_date", Value.vnull)] := rfl

example : validateProps NodeType.task 7
    [("description", Value.vstr "x"), ("status", Value.vstr "bogus")] =
    Except.error (Err.invalidProperties "status") := rfl

/-! ## CRUD operations (`app/crud.py`) -/

/-- `crud.create_node`: validate, then append the new row.  The fresh UUID and
the current time are explicit arguments. -/
def create_node (db : DB) (newId : String) (t : NodeType) (props : PropMap) (now : Nat) :
    Except Err (DB × NodeRec) := do
  let vp ← validateProps t now props
  let nd : NodeRec := ⟨newId, t, vp⟩
  Except.ok ({ db with nodes := db.nodes ++ [nd] }, nd)

/-- Replace the properties of the first row with the given id
(the mutation of the row returned by `.first()`). -/
def setPropsFirst (ns : List NodeRec) (i : String) (vp : PropMap) : List NodeRec :=
  match ns with
  | [] => []
  | n :: rest =>
      if n.id = i then { n with properties := vp } :: rest
      else n :: setPropsFirst rest i vp

/-- `crud.update_node` (lines 97-132): fetch the row (`ValueError` when
missing), shallow-merge the update over the stored properties, force
`modified_at` to now, re-validate the merged result, store. -/
def update_node (db : DB) (node_id : String) (props : PropMap) (now : Nat) :
    Except Err (DB × NodeRec) :=
  match db.nodes.find? (fun n => n.id == node_id) with
  | none => Except.error (Err.nodeNotFound node_id)
  | some nd => do
      let merged := pmSet (pmUpdate nd.properties props) "modified_at" (Value.vdt now)
      let vp ← validateProps nd.type now merged
      Except.ok ({ db with nodes := setPropsFirst db.nodes node_id vp },
                 { nd with properties := vp })

/-- Delete the first row with the given id (`db.delete(db_node)`). -/
def removeFirstNode (ns : List NodeRec) (i : String) : List NodeRec :=
  match ns with
  | [] => []
  | n :: rest => if n.id = i then rest else n :: removeFirstNode rest i

/-- `crud.delete_node` (lines 134-154): delete the node row if present and,
in the same operation, every edge whose source or target is the node. -/
def delete_node (db : DB) (node_id : String) : DB × Bool :=
  if db.nodes.any (fun n => n.id == node_id) then
    (⟨removeFirstNode db.nodes node_id,
      db.edges.filter (fun e => ¬ (e.source_id = node_id ∨ e.target_id = node_id))⟩, true)
  else (db, false)

/-- `crud.create_edge` (lines 156-187): verify each endpoint in turn, naming
the missing one in the error, then append the edge row. -/
def create_edge (db : DB) (newId source_id target_id label : String) :
    Except Err (DB × EdgeRec) :=
  if ¬ db.nodes.any (fun n => n.id == source_id) then
    Except.error (Err.sourceNotFound source_id)
  else if ¬ db.nodes.any (fun n => n.id == target_id) then
    Except.error (Err.targetNotFound target_id)
  else
    let e : EdgeRec := ⟨newId, source_id, target_id, label⟩
    Except.ok ({ db with edges := db.edges ++ [e] }, e)

/-- Delete the first edge row satisfying the test. -/
def removeFirstEdge (es : List EdgeRec) (p : EdgeRec → Bool) : List EdgeRec :=
  match es with
  | [] => []
  | e :: rest => if p e then rest else e :: removeFirstEdge rest p

/-- `crud.delete_edge` (lines 189-205). -/
def delete_edge (db : DB) (edge_id : String) : DB × Bool :=
  if db.edges.any (fun e => e.id == edge_id) then
    ({ db with edges := removeFirstEdge db.edges (fun e => e.id == edge_id) }, true)
  else (db, false)

/-- `crud.delete_edge_by_nodes` (lines 339-358): first match on the
`(source_id, target_id, label)` triple. -/
def delete_edge_by_nodes (db : DB) (source_id target_id label : String) : DB × Bool :=
  let sameTriple := fun (e : EdgeRec) =>
    e.source_id == source_id && e.target_id == target_id && e.label == label
  if db.edges.any sameTriple then
    ({ db with edges := removeFirstEdge db.edges sameTriple }, true)
  else (db, false)

/-! ## Search (`crud.search_nodes`, lines 264-316) -/

/-- Python truthiness of an optional string (`if query:`, `if label:`):
`None` and `""` are falsy. -/
def optStrGiven : Option String → Bool
  | none => false
  | some s => s ≠ ""

/-- Python truthiness of an optional list (`if tags:`): `None` and `[]`
are falsy. -/
def optListGiven : Option (List String) → Bool
  | none => false
  | some l => l ≠ []

/-- Python `needle in hay` on strings: substring containment. -/
def pyIn (needle hay : String) : Bool :=
  (List.range (hay.length + 1)).any
    (fun i => needle.data = ((hay.data.drop i).take needle.data.length))

/-- Python `str.lower()`, character by character (ASCII-faithful; the fields
here are treated as ASCII text). -/
def strLower (s : String) : String := String.mk (s.data.map Char.toLower)

/-- `node.get("properties", {}).get(f, "")` read as a string; validated rows
store strings in these fields. -/
def strField (n : NodeRec) (f : String) : String :=
  match pmGet n.properties f with
  | some (Value.vstr s) => s
  | _ => ""

/-- `properties.get("tags", [])` read as a list of strings; validated rows
store a list of strings there. -/
def tagsOf (n : NodeRec) : List String :=
  match pmGet n.properties "tags" with
  | some (Value.vlist l) => l
  | _ => []

/-- The per-type free-text condition of `search_nodes` (lines 296-313), for
an already lower-cased query.  Note the `Project` branch compares the query
against the raw `description` (the source omits `.lower()` there, unlike
every other field). -/
def matchesQuery (q : String) (n : NodeRec) : Bool :=
  match n.type with
  | NodeType.task => pyIn q (strLower (strField n "description"))
  | NodeType.note =>
      pyIn q (strLower (strField n "title")) || pyIn q (strLower (strField n "content"))
  | NodeType.person => pyIn q (strLower (strField n "name"))
  | NodeType.project =>
      pyIn q (strLower (strField n "name")) || pyIn q (strField n "description")

/-- The type-filtered node list of `search_nodes` (its SQL stage). -/
def searchBase (db : DB) (node_type : Option NodeType) : List NodeRec :=
  match node_type with
  | some t => db.nodes.filter (fun n => n.type == t)
  | none => db.nodes

/-- The tag-intersection stage of `search_nodes`: applied only when `tags`
is truthy; a node is kept when any supplied tag occurs in its tag list. -/
def searchTagged (db : DB) (node_type : Option NodeType)
    (tags : Option (List String)) : List NodeRec :=
  if optListGiven tags then
    (searchBase db node_type).filter
      (fun n => (tags.getD []).any (fun tg => tg ∈ tagsOf n))
  else searchBase db node_type

/-- `crud.search_nodes`: type filter, then tag-intersection filter, then
free-text filter, each applied only when its argument is truthy. -/
def search_nodes (db : DB) (query : Option String) (node_type : Option NodeType)
    (tags : Option (List String)) : List NodeRec :=
  if optStrGiven query then
    (searchTagged db node_type tags).filter (matchesQuery (strLower (query.getD "")))
  else searchTagged db node_type tags

example : pyIn "apple" "an apple tree" = true := by decide
example : pyIn "apple" "an Apple tree" = false := by decide

/-! ## Tag rename (`crud.rename_tag`, lines 361-401) -/

/-- Lexicographic (code-point) comparison of character lists, as Python
compares strings. -/
def charListLe : List Char → List Char → Bool
  | [], _ => true
  | _ :: _, [] => false
  | a :: as, b :: bs =>
      if a.toNat < b.toNat then true
      else if b.toNat < a.toNat then false
      else charListLe as bs

/-- Python `a <= b` on strings. -/
def strLeB (a b : String) : Bool := charListLe a.data b.data

/-- Insert into a sorted list (one step of sorting). -/
def insertTag (a : String) : List String → List String
  | [] => [a]
  | b :: l => if strLeB a b then a :: b :: l else b :: insertTag a l

/-- Keep one copy of each element (`set(...)`, up to order). -/
def dedupTags : List String → List String
  | [] => []
  | a :: l => if a ∈ l then dedupTags l else a :: dedupTags l

/-- `sorted(list(set(xs)))`: the deduplicated, lexicographically sorted tag
list. -/
def sortDedup (xs : List String) : List String :=
  (dedupTags xs).foldr insertTag []

/-- One hexadecimal digit, lower case (as `json.dumps` prints `\uXXXX`). -/
def hexDigit (n : Nat) : Char :=
  if n < 10 then Char.ofNat (48 + n) else Char.ofNat (87 + n)

/-- Four hexadecimal digits of a code unit. -/
def hex4 (n : Nat) : List Char :=
  [hexDigit (n / 4096 % 16), hexDigit (n / 256 % 16),
   hexDigit (n / 16 % 16), hexDigit (n % 16)]

/-- How `json.dumps` (default `ensure_ascii=True`, as SQLAlchemy serializes a
JSON column) renders one character inside a string literal: `"`, `\` and the
named control characters get two-character escapes, other control characters
and every non-ASCII character become `\uXXXX` (a surrogate pair beyond the
basic plane), and the remaining printable ASCII characters stand for
themselves. -/
def jsonEscapeChar (c : Char) : List Char :=
  if c = '"' then ['\\', '"']
  else if c = '\\' then ['\\', '\\']
  else if c = Char.ofNat 8 then ['\\', 'b']
  else if c = Char.ofNat 9 then ['\\', 't']
  else if c = Char.ofNat 10 then ['\\', 'n']
  else if c = Char.ofNat 12 then ['\\', 'f']
  else if c = Char.ofNat 13 then ['\\', 'r']
  else if c.toNat < 32 ∨ 127 ≤ c.toNat then
    if c.toNat < 65536 then '\\' :: 'u' :: hex4 c.toNat
    else '\\' :: 'u' :: hex4 (55296 + (c.toNat - 65536) / 1024) ++
      '\\' :: 'u' :: hex4 (56320 + (c.toNat - 65536) % 1024)
  else [c]

/-- A JSON string literal, escaped as `json.dumps` writes it. -/
def jsonString (s : String) : String :=
  "\"" ++ String.mk (s.data.map jsonEscapeChar).flatten ++ "\""

/-- `json.dumps`'s default item separator `", "`. -/
def joinComma : List String → String
  | [] => ""
  | [a] => a
  | a :: rest => a ++ ", " ++ joinComma rest

mutual
/-- The JSON text of a stored property value, as `json.dumps` writes it with
its default separators.  The datetime tick renders as its decimal digits
inside quotes — the file-wide abstraction of the ISO datetime string
`model_dump(mode="json")` stores, which like it contains no quote or
backslash. -/
def jsonValue : Value → String
  | Value.vstr s => jsonString s
  | Value.vlist xs => "[" ++ joinComma (xs.map jsonString) ++ "]"
  | Value.vmap m => "\x7b" ++ jsonEntries m ++ "\x7d"
  | Value.vdt t => jsonString (toString t)
  | Value.vnull => "null"
/-- The JSON text of a dictionary's entries, `", "`-separated with `": "`
after each key. -/
def jsonEntries : List (String × Value) → String
  | [] => ""
  | [(k, v)] => jsonString k ++ ": " ++ jsonValue v
  | (k, v) :: rest => jsonString k ++ ": " ++ jsonValue v ++ ", " ++ jsonEntries rest
end

/-- The JSON text of a row's `properties` column — what
`properties.cast(String)` exposes to the SQL `LIKE`. -/
def jsonRender (m : PropMap) : String := "\x7b" ++ jsonEntries m ++ "\x7d"

/-- The SQL pre-selection `properties.cast(String).like('%"old_tag"%')`
(`crud.py` line 373), read as: the JSON text of the row's properties contains
the quoted tag as a substring.  SQLite's `LIKE` additionally matches ASCII
letters case-insensitively and treats `%`/`_` inside `old_tag` as wildcards;
both only ever select more rows than this literal reading, and a row whose
tag list holds a tag that JSON renders literally is already selected here, so
the difference never changes which rows the loop modifies for such tags (the
in-loop `old_tag in tags` re-check decides every selected row). -/
def likeSelected (oldT : String) (m : PropMap) : Bool :=
  pyIn ("\"" ++ oldT ++ "\"") (jsonRender m)

/-- The row condition of the `rename_tag` loop: the row passed the SQL
pre-selection and its tag list really contains the old tag. -/
def renameSel (oldT : String) (n : NodeRec) : Prop :=
  likeSelected oldT n.properties = true ∧ oldT ∈ tagsOf n

instance (oldT : String) (n : NodeRec) : Decidable (renameSel oldT n) := by
  unfold renameSel
  infer_instance

/-- The body of the `rename_tag` loop, in row order: a row that passed the
SQL pre-selection and whose tag list contains `oldT` gets `oldT` replaced by
`newT`, deduplicated and sorted, then re-validated and stored; every other
row — including a row holding `oldT` that the pre-selection missed because
its JSON rendering escapes the tag — is left untouched.  Returns the new
rows plus the list of updated rows. -/
def rename_tag_go (oldT newT : String) (now : Nat) :
    List NodeRec → Except Err (List NodeRec × List NodeRec)
  | [] => Except.ok ([], [])
  | n :: rest =>
      if renameSel oldT n then do
        let newTags := sortDedup ((tagsOf n).map (fun t => if t = oldT then newT else t))
        let vp ← validateProps n.type now (pmSet n.properties "tags" (Value.vlist newTags))
        let n' : NodeRec := { n with properties := vp }
        let (rest', upd) ← rename_tag_go oldT newT now rest
        Except.ok (n' :: rest', n' :: upd)
      else do
        let (rest', upd) ← rename_tag_go oldT newT now rest
        Except.ok (n :: rest', upd)

/-- `crud.rename_tag`: rewrite the tag on every row holding it; return the
updated rows. -/
def rename_tag (db : DB) (oldT newT : String) (now : Nat) :
    Except Err (DB × List NodeRec) := do
  let (nodes', upd) ← rename_tag_go oldT newT now db.nodes
  Except.ok ({ db with nodes := nodes' }, upd)

/-! ## Node edges by direction -/

/-- Modelled from the spec: `crud.get_node_edges` is invoked by
`Shared.get_node_edges` (`app/tools/shared.py` lines 58-71) and exercised by
the test suite, but its definition is absent from the repository snapshot's
`crud.py`.  Per the spec: `outgoing` keeps the edges whose `source_id` is the
node, `incoming` those whose `target_id` is the node, and a null direction
the union of both. -/
def get_node_edges (db : DB) (node_id : String) (direction : Option String) :
    List EdgeRec :=
  match direction with
  | some "outgoing" => db.edges.filter (fun e => e.source_id == node_id)
  | some "incoming" => db.edges.filter (fun e => e.target_id == node_id)
  | _ => db.edges.filter (fun e => e.source_id == node_id || e.target_id == node_id)

/-! ## Semantic search (`app/vector_store.py` lines 124-155,
`app/tools/shared.py` lines 164-200) -/

/-- Dynamically typed Python values, as far as `Shared.semantic_search`
manipulates them: strings, ints, lists and string-keyed dicts. -/
inductive Py where
  | pstr (s : String)
  | pint (n : Nat)
  | plist (xs : List Py)
  | pdict (m : List (String × Py))

/-- Python subscription `v[k]`: dict lookup for a string key, positional
indexing for an int key on a list; any other combination raises `TypeError`.
Subscripting a *list* with a *string* key is the relevant failing case. -/
def pySubscript (v k : Py) : Except Err Py :=
  match v, k with
  | Py.pdict m, Py.pstr s =>
      match m.find? (fun p => p.1 == s) with
      | some p => Except.ok p.2
      | none => Except.error Err.typeError
  | Py.plist xs, Py.pint i =>
      match xs.get? i with
      | some x => Except.ok x
      | none => Except.error Err.typeError
  | _, _ => Except.error Err.typeError

/-- Python truthiness of the values above (`if not search_results:`). -/
def pyTruthy : Py → Bool
  | Py.pstr s => s ≠ ""
  | Py.pint n => n ≠ 0
  | Py.plist xs => ¬ xs.isEmpty
  | Py.pdict m => ¬ m.isEmpty

/-- `VectorStore.semantic_search` (lines 124-155): the ChromaDB query yields
`{"ids": [rankedIds]}` for the single query text, and the method returns
`results["ids"][0]` — the flat, relevance-ordered list of node ids (or `[]`
on failure).  The ranked id list itself comes from the external index and is
a parameter here. -/
def vectorStoreSemanticSearch (rankedIds : List String) : Py :=
  Py.plist (rankedIds.map Py.pstr)

/-- `crud.get_nodes_by_ids` (lines 83-95): the rows whose id is in the list,
in table order. -/
def get_nodes_by_ids (db : DB) (node_ids : List String) : List NodeRec :=
  db.nodes.filter (fun n => node_ids.contains n.id)

/-- The hydration tail of `Shared.semantic_search` (lines 192-198): fetch the
rows, key them by id, and walk the ranked id list, keeping ids that resolved. -/
def hydrateRanked (db : DB) (node_ids : List String) : List NodeRec :=
  let nodes := get_nodes_by_ids db node_ids
  node_ids.filterMap (fun i => nodes.find? (fun n => n.id == i))

/-- `Shared.semantic_search` (lines 164-200): take the vector store's result,
return `[]` when it is falsy, otherwise extract `search_results["ids"][0]`
and hydrate.  The extraction subscripts the (flat) id list with the string
key `"ids"`. -/
def shared_semantic_search (db : DB) (rankedIds : List String) :
    Except Err (List NodeRec) :=
  let searchResults := vectorStoreSemanticSearch rankedIds
  if ¬ pyTruthy searchResults then Except.ok []
  else do
    let ids ← pySubscript searchResults (Py.pstr "ids")
    let ids0 ← pySubscript ids (Py.pint 0)
    let nodeIds := match ids0 with
      | Py.plist xs => xs.filterMap (fun x => match x with | Py.pstr s => some s | _ => none)
      | _ => []
    Except.ok (hydrateRanked db nodeIds)

/-! ## Bounded-depth BFS (`crud.get_connected_nodes`, lines 207-262) -/

/-- The edge filter of one BFS expansion: the edge touches the current node
(either endpoint) and, when a label is truthy, bears it. -/
def edgeSelected (label : Option String) (x : String) (e : EdgeRec) : Bool :=
  (e.source_id == x || e.target_id == x) &&
    (if optStrGiven label then e.label == label.getD "" else true)

/-- The neighbor ids derived from the selected edges: the endpoint that is
not the current node (the target when the source matches, else the source). -/
def neighborIds (db : DB) (label : Option String) (x : String) : List String :=
  (db.edges.filter (edgeSelected label x)).map
    (fun e => if e.source_id == x then e.target_id else e.source_id)

/-- The inner loop over the fetched neighbor rows: each row not yet visited
is marked visited, recorded in the results, and enqueued at the next depth. -/
def visitNew (k1 : Nat) : List NodeRec → List (String × Nat) → List String → List NodeRec →
    List (String × Nat) × List String × List NodeRec
  | [], q, vis, res => (q, vis, res)
  | n :: ns, q, vis, res =>
      if n.id ∈ vis then visitNew k1 ns q vis res
      else visitNew k1 ns (q ++ [(n.id, k1)]) (n.id :: vis) (res ++ [n])

/-- Node ids not yet visited (they bound how often the BFS can still grow). -/
def unvisitedCount (db : DB) (vis : List String) : Nat :=
  (((db.nodes.map (fun n => n.id)).dedup).filter (fun i => ¬ i ∈ vis)).length

theorem unvisitedCount_cons (db : DB) (vis : List String) (a : String)
    (ha : a ∈ db.nodes.map (fun n => n.id)) (hv : ¬ a ∈ vis) :
    unvisitedCount db (a :: vis) + 1 = unvisitedCount db vis := by
  unfold unvisitedCount
  have hnd : ((db.nodes.map (fun n => n.id)).dedup).Nodup := List.nodup_dedup _
  have had : a ∈ (db.nodes.map (fun n => n.id)).dedup := List.mem_dedup.mpr ha
  set l := (db.nodes.map (fun n => n.id)).dedup with hl
  have h1 : l.filter (fun i => ¬ i ∈ (a :: vis)) =
      (l.filter (fun i => ¬ i ∈ vis)).filter (fun i => i ≠ a) := by
    rw [List.filter_filter]
    apply List.filter_congr
    intro b _
    by_cases hba : b = a <;> by_cases hbv : b ∈ vis <;>
      simp [hba, hbv, List.mem_cons]
  have hmem : a ∈ l.filter (fun i => ¬ i ∈ vis) := by
    refine List.mem_filter.mpr ⟨had, by simpa using hv⟩
  have hnd2 : (l.filter (fun i => ¬ i ∈ vis)).Nodup := hnd.filter _
  have h2 : (l.filter (fun i => ¬ i ∈ vis)).filter (fun i => i ≠ a) =
      (l.filter (fun i => ¬ i ∈ vis)).erase a := by
    rw [hnd2.erase_eq_filter]
    apply List.filter_congr
    intro b _
    by_cases hba : b = a <;> simp [hba]
  rw [h1, h2, List.length_erase_of_mem hmem]
  have : 1 ≤ (l.filter (fun i => ¬ i ∈ vis)).length := List.length_pos_of_mem hmem
  omega

theorem visitNew_measure (db : DB) (k1 : Nat) :
    ∀ (ns : List NodeRec) (q : List (String × Nat)) (vis : List String)
      (res : List NodeRec), (∀ n ∈ ns, n ∈ db.nodes) →
    (visitNew k1 ns q vis res).1.length +
        2 * unvisitedCount db (visitNew k1 ns q vis res).2.1 ≤
      q.length + 2 * unvisitedCount db vis
  | [], q, vis, res, _ => le_refl _
  | n :: ns, q, vis, res, h => by
      by_cases hv : n.id ∈ vis
      · simp only [visitNew, if_pos hv]
        exact visitNew_measure db k1 ns q vis res (fun m hm => h m (List.mem_cons_of_mem _ hm))
      · simp only [visitNew, if_neg hv]
        have hle := visitNew_measure db k1 ns (q ++ [(n.id, k1)]) (n.id :: vis) (res ++ [n])
          (fun m hm => h m (List.mem_cons_of_mem _ hm))
        have hcnt := unvisitedCount_cons db vis n.id
          (List.mem_map.mpr ⟨n, h n (List.mem_cons_self _ _), rfl⟩) hv
        simp only [List.length_append, List.length_cons, List.length_nil] at hle
        omega

/-- The BFS drain loop of `get_connected_nodes`: pop the front of the queue;
at the depth bound, skip expansion; otherwise fetch the neighbor rows and
visit the new ones at depth `k+1`. -/
def bfsLoop (db : DB) (label : Option String) (depth : Nat) :
    List (String × Nat) → List String → List NodeRec → List NodeRec
  | [], _, res => res
  | (x, k) :: rest, vis, res =>
      if depth ≤ k then bfsLoop db label depth rest vis res
      else
        let fetched := db.nodes.filter (fun n => (neighborIds db label x).contains n.id)
        let s := visitNew (k + 1) fetched rest vis res
        bfsLoop db label depth s.1 s.2.1 s.2.2
termination_by q vis _ => q.length + 2 * unvisitedCount db vis
decreasing_by
  · simp only [List.length_cons]
    omega
  · have := visitNew_measure db (k + 1)
      (db.nodes.filter (fun n => (neighborIds db label x).contains n.id)) rest vis res
      (fun n hn => (List.mem_filter.mp hn).1)
    simp only [List.length_cons]
    omega

/-- `crud.get_connected_nodes`: empty result for a non-positive depth,
otherwise BFS from the start node (seeded visited, start excluded from
results). -/
def get_connected_nodes (db : DB) (node_id : String) (label : Option String)
    (depth : Int) : List NodeRec :=
  if depth ≤ 0 then []
  else bfsLoop db label depth.toNat [(node_id, 0)] [node_id] []

/-! ## Reachability (specification layer for the BFS claim) -/

/-- A truthy label: `None`, or a non-empty string (an empty string is falsy
in `if label:` and imposes no restriction, so it is excluded here). -/
def labelWf (label : Option String) : Prop := ∀ s, label = some s → s ≠ ""

/-- One undirected hop: some stored edge joins `x` and `y` (in either
orientation) and bears the given label when one is supplied. -/
def adjacent (db : DB) (label : Option String) (x y : String) : Prop :=
  ∃ e ∈ db.edges, (∀ l, label = some l → e.label = l) ∧
    ((e.source_id = x ∧ e.target_id = y) ∨ (e.target_id = x ∧ e.source_id = y))

/-- A path of exactly `m` undirected, label-respecting hops from `start`. -/
inductive ReachN (db : DB) (label : Option String) (start : String) : Nat → String → Prop where
  | refl : ReachN db label start 0 start
  | step {m y z} : ReachN db label start m y → adjacent db label y z →
      ReachN db label start (m + 1) z

/-- Reachable within `m` hops. -/
def reachWithin (db : DB) (label : Option String) (start : String) (m : Nat)
    (y : String) : Prop :=
  ∃ j ≤ m, ReachN db label start j y

/-- Every edge endpoint references an existing node (the invariant the engine
maintains; see the `create_edge` / `delete_node` theorems). -/
def edgeRefsOk (db : DB) : Prop :=
  ∀ e ∈ db.edges, (∃ n ∈ db.nodes, n.id = e.source_id) ∧
    (∃ n ∈ db.nodes, n.id = e.target_id)

theorem reachN_zero {db label start y} (h : ReachN db label start 0 y) : y = start := by
  cases h
  rfl

theorem reachN_succ {db label start m y} (h : ReachN db label start (m + 1) y) :
    ∃ p, ReachN db label start m p ∧ adjacent db label p y := by
  cases h with
  | step hp ha => exact ⟨_, hp, ha⟩

theorem adjacent_endpoints {db label x y} (h : adjacent db label x y)
    (hc : edgeRefsOk db) :
    (∃ n ∈ db.nodes, n.id = x) ∧ (∃ n ∈ db.nodes, n.id = y) := by
  obtain ⟨e, he, _, hxy⟩ := h
  obtain ⟨hs, ht⟩ := hc e he
  rcases hxy with ⟨h1, h2⟩ | ⟨h1, h2⟩
  · exact ⟨h1 ▸ hs, h2 ▸ ht⟩
  · exact ⟨h1 ▸ ht, h2 ▸ hs⟩

/-- For a truthy (or absent) label, membership in the BFS neighbor-id list is
exactly the undirected, label-respecting adjacency of the specification. -/
theorem mem_neighborIds_iff {db : DB} {label : Option String} {x y : String}
    (hwf : labelWf label) :
    y ∈ neighborIds db label x ↔ adjacent db label x y := by
  unfold neighborIds adjacent
  constructor
  · intro hy
    obtain ⟨e, hef, hmap⟩ := List.mem_map.mp hy
    obtain ⟨he, hsel⟩ := List.mem_filter.mp hef
    unfold edgeSelected at hsel
    simp only [Bool.and_eq_true, Bool.or_eq_true, beq_iff_eq] at hsel
    obtain ⟨htouch, hlab⟩ := hsel
    refine ⟨e, he, ?_, ?_⟩
    · intro l hl
      have hne : l ≠ "" := hwf l hl
      have : optStrGiven label = true := by
        rw [hl]
        simpa [optStrGiven] using hne
      rw [this] at hlab
      simp only [if_true] at hlab
      rw [hl] at hlab
      simpa using hlab
    · by_cases hsx : e.source_id = x
      · left
        constructor
        · exact hsx
        · rw [← hmap]
          simp [hsx]
      · rcases htouch with h | h
        · exact absurd h hsx
        · right
          constructor
          · exact h
          · rw [← hmap]
            simp [hsx]
  · rintro ⟨e, he, hlab, hxy⟩
    have hsel : edgeSelected label x e = true := by
      unfold edgeSelected
      simp only [Bool.and_eq_true, Bool.or_eq_true, beq_iff_eq]
      constructor
      · rcases hxy with ⟨h1, _⟩ | ⟨h1, _⟩
        · exact Or.inl h1
        · exact Or.inr h1
      · cases hL : label with
        | none => simp [optStrGiven]
        | some l =>
            have := hlab l hL
            simp [optStrGiven, hL, this]
    refine List.mem_map.mpr ⟨e, List.mem_filter.mpr ⟨he, hsel⟩, ?_⟩
    rcases hxy with ⟨h1, h2⟩ | ⟨h1, h2⟩
    · simp [h1, h2]
    · by_cases hsx : e.source_id = x
      · have : y = x := by rw [← h2, hsx]
        simp [hsx, ← h1, this]
      · simp only [beq_iff_eq, h2]
        have hyx : ¬ y = x := fun hyx => absurd (h2.trans hyx) hsx
        rw [if_neg hyx]

/-- The ids of the recorded result rows, in discovery order. -/
def resIds (res : List NodeRec) : List String := res.map (fun n => n.id)

/-- The BFS loop invariant: bookkeeping between the queue, the visited set
and the result rows.

* visited = start plus precisely the recorded results, without duplicates;
* recorded rows are stored rows other than the start, reachable within the
  depth bound;
* every queue entry is visited, within the depth bound, and its recorded
  depth is exactly its BFS distance (reachable within it, and no shorter
  path exists);
* queue depths are nondecreasing and span at most two consecutive levels;
* every visited node is still queued, or lies at distance ≥ depth (it was
  dequeued at the cutoff), or all of its stored neighbors are visited. -/
structure BfsInv (db : DB) (label : Option String) (depth : Nat) (start : String)
    (q : List (String × Nat)) (vis : List String) (res : List NodeRec) : Prop where
  vis_eq : ∀ z, z ∈ vis ↔ z = start ∨ z ∈ resIds res
  res_nodup : (resIds res).Nodup
  res_rows : ∀ n ∈ res, n ∈ db.nodes
  res_not_start : ∀ n ∈ res, n.id ≠ start
  q_vis : ∀ p ∈ q, p.1 ∈ vis
  q_depth_le : ∀ p ∈ q, p.2 ≤ depth
  q_reach : ∀ p ∈ q, reachWithin db label start p.2 p.1
  q_tight : ∀ p ∈ q, ∀ j, ReachN db label start j p.1 → p.2 ≤ j
  q_sorted : List.Pairwise (fun a b => a.2 ≤ b.2) q
  q_window : ∀ p ∈ q, ∀ p' ∈ q, p'.2 ≤ p.2 + 1
  vis_reach : ∀ z ∈ vis, reachWithin db label start depth z
  vis_closed : ∀ z ∈ vis, (∃ p ∈ q, p.1 = z) ∨
      (∀ j, ReachN db label start j z → depth ≤ j) ∨
      (∀ y, adjacent db label z y → y ∈ vis)

/-- Completeness workhorse: under the invariant, any node whose exact path
length is below every queued depth (and within the overall bound) has
already been visited. -/
theorem bfs_complete_aux {db : DB} {label : Option String} {depth : Nat}
    {start : String} {q vis res}
    (inv : BfsInv db label depth start q vis res) :
    ∀ m y, ReachN db label start m y → m ≤ depth → (∀ p ∈ q, m ≤ p.2) →
      y ∈ vis := by
  intro m
  induction m with
  | zero =>
      intro y hy _ _
      rw [reachN_zero hy]
      exact (inv.vis_eq start).mpr (Or.inl rfl)
  | succ m ih =>
      intro y hy hle hq
      obtain ⟨p, hp, hadj⟩ := reachN_succ hy
      have hpv : p ∈ vis := by
        refine ih p hp (by omega) ?_
        intro pr hpr
        have := hq pr hpr
        omega
      rcases inv.vis_closed p hpv with ⟨pr, hpr, hpz⟩ | htight | hcl
      · have h1 : pr.2 ≤ m := inv.q_tight pr hpr m (by rw [hpz]; exact hp)
        have h2 : m + 1 ≤ pr.2 := hq pr hpr
        omega
      · have := htight m hp
        omega
      · exact hcl y hadj

theorem reachWithin_mono {db label start m m' y} (h : m ≤ m')
    (hr : reachWithin db label start m y) : reachWithin db label start m' y := by
  obtain ⟨j, hj, hp⟩ := hr
  exact ⟨j, le_trans hj h, hp⟩

theorem reachWithin_step {db label start m x y}
    (hr : reachWithin db label start m x) (ha : adjacent db label x y) :
    reachWithin db label start (m + 1) y := by
  obtain ⟨j, hj, hp⟩ := hr
  exact ⟨j + 1, by omega, ReachN.step hp ha⟩

/-- The invariant holding while the inner loop of one BFS expansion (current
node `x`, current depth `k < depth`) consumes the remaining fetched neighbor
rows `ns`. -/
structure MidInv (db : DB) (label : Option String) (depth : Nat) (start : String)
    (x : String) (k : Nat) (ns : List NodeRec) (q : List (String × Nat))
    (vis : List String) (res : List NodeRec) : Prop where
  vis_eq : ∀ z, z ∈ vis ↔ z = start ∨ z ∈ resIds res
  res_nodup : (resIds res).Nodup
  res_rows : ∀ n ∈ res, n ∈ db.nodes
  res_not_start : ∀ n ∈ res, n.id ≠ start
  q_vis : ∀ p ∈ q, p.1 ∈ vis
  q_depth_le : ∀ p ∈ q, p.2 ≤ depth
  q_reach : ∀ p ∈ q, reachWithin db label start p.2 p.1
  q_tight : ∀ p ∈ q, ∀ j, ReachN db label start j p.1 → p.2 ≤ j
  q_sorted : List.Pairwise (fun a b => a.2 ≤ b.2) q
  q_levels : ∀ p ∈ q, k ≤ p.2 ∧ p.2 ≤ k + 1
  vis_reach : ∀ z ∈ vis, reachWithin db label start depth z
  vis_closed : ∀ z ∈ vis, z = x ∨ (∃ p ∈ q, p.1 = z) ∨
      (∀ j, ReachN db label start j z → depth ≤ j) ∨
      (∀ y, adjacent db label z y → y ∈ vis)
  x_reach : reachWithin db label start k x
  x_closure : ∀ y, adjacent db label x y → y ∈ vis ∨ ∃ n ∈ ns, n.id = y
  ns_rows : ∀ n ∈ ns, n ∈ db.nodes
  ns_adj : ∀ n ∈ ns, adjacent db label x n.id
  ns_min : ∀ n ∈ ns, ¬ n.id ∈ vis → ∀ j, ReachN db label start j n.id → k + 1 ≤ j
  k_lt : k + 1 ≤ depth

/-- The inner loop preserves the mid-expansion invariant and consumes the
fetched rows. -/
theorem visitNew_midInv {db : DB} {label : Option String} {depth : Nat}
    {start x : String} {k : Nat} :
    ∀ (ns : List NodeRec) (q : List (String × Nat)) (vis : List String)
      (res : List NodeRec),
      MidInv db label depth start x k ns q vis res →
      MidInv db label depth start x k []
        (visitNew (k + 1) ns q vis res).1
        (visitNew (k + 1) ns q vis res).2.1
        (visitNew (k + 1) ns q vis res).2.2
  | [], q, vis, res, mid => mid
  | n :: ns, q, vis, res, mid => by
      by_cases hv : n.id ∈ vis
      · simp only [visitNew, if_pos hv]
        apply visitNew_midInv ns q vis res
        exact { mid with
          x_closure := by
            intro y hy
            rcases mid.x_closure y hy with h | ⟨m, hm, hmy⟩
            · exact Or.inl h
            · rcases List.mem_cons.mp hm with rfl | hm'
              · exact Or.inl (hmy ▸ hv)
              · exact Or.inr ⟨m, hm', hmy⟩
          ns_rows := fun m hm => mid.ns_rows m (List.mem_cons_of_mem _ hm)
          ns_adj := fun m hm => mid.ns_adj m (List.mem_cons_of_mem _ hm)
          ns_min := fun m hm => mid.ns_min m (List.mem_cons_of_mem _ hm) }
      · simp only [visitNew, if_neg hv]
        apply visitNew_midInv ns (q ++ [(n.id, k + 1)]) (n.id :: vis) (res ++ [n])
        have hnid_notres : ¬ n.id ∈ resIds res := by
          intro h
          exact hv ((mid.vis_eq n.id).mpr (Or.inr h))
        have hnid_nstart : n.id ≠ start := by
          intro h
          exact hv ((mid.vis_eq n.id).mpr (Or.inl h))
        have hadj : adjacent db label x n.id := mid.ns_adj n (List.mem_cons_self _ _)
        have hreach1 : reachWithin db label start (k + 1) n.id :=
          reachWithin_step mid.x_reach hadj
        refine { vis_eq := ?_, res_nodup := ?_, res_rows := ?_, res_not_start := ?_,
                 q_vis := ?_, q_depth_le := ?_, q_reach := ?_, q_tight := ?_,
                 q_sorted := ?_, q_levels := ?_, vis_reach := ?_, vis_closed := ?_,
                 x_reach := mid.x_reach, x_closure := ?_, ns_rows := ?_,
                 ns_adj := ?_, ns_min := ?_, k_lt := mid.k_lt }
        · intro z
          simp only [List.mem_cons, resIds, List.map_append, List.map_cons,
            List.map_nil, List.mem_append]
          constructor
          · rintro (rfl | hz)
            · exact Or.inr (Or.inr (Or.inl rfl))
            · rcases (mid.vis_eq z).mp hz with h | h
              · exact Or.inl h
              · exact Or.inr (Or.inl h)
          · rintro (rfl | h | h)
            · exact Or.inr ((mid.vis_eq z).mpr (Or.inl rfl))
            · exact Or.inr ((mid.vis_eq z).mpr (Or.inr h))
            · rcases h with h | h
              · exact Or.inl h
              · cases h
        · have : resIds (res ++ [n]) = resIds res ++ [n.id] := by
            simp [resIds]
          rw [this]
          exact List.Nodup.append mid.res_nodup (List.nodup_singleton _)
            (by simpa using hnid_notres)
        · intro m hm
          rcases List.mem_append.mp hm with h | h
          · exact mid.res_rows m h
          · rw [List.mem_singleton.mp h]
            exact mid.ns_rows n (List.mem_cons_self _ _)
        · intro m hm
          rcases List.mem_append.mp hm with h | h
          · exact mid.res_not_start m h
          · rw [List.mem_singleton.mp h]
            exact hnid_nstart
        · intro p hp
          rcases List.mem_append.mp hp with h | h
          · exact List.mem_cons_of_mem _ (mid.q_vis p h)
          · rw [List.mem_singleton.mp h]
            exact List.mem_cons_self _ _
        · intro p hp
          rcases List.mem_append.mp hp with h | h
          · exact mid.q_depth_le p h
          · rw [List.mem_singleton.mp h]
            exact mid.k_lt
        · intro p hp
          rcases List.mem_append.mp hp with h | h
          · exact mid.q_reach p h
          · rw [List.mem_singleton.mp h]
            exact hreach1
        · intro p hp
          rcases List.mem_append.mp hp with h | h
          · exact mid.q_tight p h
          · rw [List.mem_singleton.mp h]
            exact mid.ns_min n (List.mem_cons_self _ _) hv
        · rw [List.pairwise_append]
          refine ⟨mid.q_sorted, List.pairwise_singleton _ _, ?_⟩
          intro a ha b hb
          rw [List.mem_singleton.mp hb]
          exact (mid.q_levels a ha).2
        · intro p hp
          rcases List.mem_append.mp hp with h | h
          · exact mid.q_levels p h
          · rw [List.mem_singleton.mp h]
            omega
        · intro z hz
          rcases List.mem_cons.mp hz with rfl | h
          · exact reachWithin_mono mid.k_lt hreach1
          · exact mid.vis_reach z h
        · intro z hz
          rcases List.mem_cons.mp hz with rfl | h
          · exact Or.inr (Or.inl ⟨(n.id, k + 1), List.mem_append_right _
              (List.mem_singleton.mpr rfl), rfl⟩)
          · rcases mid.vis_closed z h with h1 | ⟨p, hp, hpz⟩ | h1 | h1
            · exact Or.inl h1
            · exact Or.inr (Or.inl ⟨p, List.mem_append_left _ hp, hpz⟩)
            · exact Or.inr (Or.inr (Or.inl h1))
            · exact Or.inr (Or.inr (Or.inr
                (fun y hy => List.mem_cons_of_mem _ (h1 y hy))))
        · intro y hy
          rcases mid.x_closure y hy with h | ⟨m, hm, hmy⟩
          · exact Or.inl (List.mem_cons_of_mem _ h)
          · rcases List.mem_cons.mp hm with rfl | hm'
            · exact Or.inl (hmy ▸ List.mem_cons_self _ _)
            · exact Or.inr ⟨m, hm', hmy⟩
        · exact fun m hm => mid.ns_rows m (List.mem_cons_of_mem _ hm)
        · exact fun m hm => mid.ns_adj m (List.mem_cons_of_mem _ hm)
        · intro m hm hmv
          exact mid.ns_min m (List.mem_cons_of_mem _ hm)
            (fun h => hmv (List.mem_cons_of_mem _ h))

/-- Dropping a queue entry at the depth cutoff preserves the invariant. -/
theorem bfsInv_skip {db : DB} {label : Option String} {depth : Nat}
    {start x : String} {k : Nat} {rest vis res}
    (inv : BfsInv db label depth start ((x, k) :: rest) vis res)
    (hk : depth ≤ k) : BfsInv db label depth start rest vis res := by
  have hhead : ((x, k) : String × Nat) ∈ (x, k) :: rest := List.mem_cons_self _ _
  refine { vis_eq := inv.vis_eq, res_nodup := inv.res_nodup,
           res_rows := inv.res_rows, res_not_start := inv.res_not_start,
           q_vis := ?_, q_depth_le := ?_, q_reach := ?_, q_tight := ?_,
           q_sorted := ?_, q_window := ?_, vis_reach := inv.vis_reach,
           vis_closed := ?_ }
  · exact fun p hp => inv.q_vis p (List.mem_cons_of_mem _ hp)
  · exact fun p hp => inv.q_depth_le p (List.mem_cons_of_mem _ hp)
  · exact fun p hp => inv.q_reach p (List.mem_cons_of_mem _ hp)
  · exact fun p hp => inv.q_tight p (List.mem_cons_of_mem _ hp)
  · exact (List.pairwise_cons.mp inv.q_sorted).2
  · exact fun p hp p' hp' =>
      inv.q_window p (List.mem_cons_of_mem _ hp) p' (List.mem_cons_of_mem _ hp')
  · intro z hz
    rcases inv.vis_closed z hz with ⟨p, hp, hpz⟩ | h | h
    · rcases List.mem_cons.mp hp with rfl | hp'
      · refine Or.inr (Or.inl ?_)
        intro j hj
        have := inv.q_tight (x, k) hhead j (hpz ▸ hj)
        omega
      · exact Or.inl ⟨p, hp', hpz⟩
    · exact Or.inr (Or.inl h)
    · exact Or.inr (Or.inr h)

/-- Entering one expansion below the depth bound establishes the
mid-expansion invariant over the fetched neighbor rows. -/
theorem bfsInv_expand {db : DB} {label : Option String} {depth : Nat}
    {start x : String} {k : Nat} {rest vis res}
    (hc : edgeRefsOk db) (hwf : labelWf label)
    (inv : BfsInv db label depth start ((x, k) :: rest) vis res)
    (hk : k < depth) :
    MidInv db label depth start x k
      (db.nodes.filter (fun n => (neighborIds db label x).contains n.id))
      rest vis res := by
  have hhead : ((x, k) : String × Nat) ∈ (x, k) :: rest := List.mem_cons_self _ _
  have hsorted := List.pairwise_cons.mp inv.q_sorted
  refine { vis_eq := inv.vis_eq, res_nodup := inv.res_nodup,
           res_rows := inv.res_rows, res_not_start := inv.res_not_start,
           q_vis := ?_, q_depth_le := ?_, q_reach := ?_, q_tight := ?_,
           q_sorted := hsorted.2, q_levels := ?_, vis_reach := inv.vis_reach,
           vis_closed := ?_, x_reach := inv.q_reach (x, k) hhead,
           x_closure := ?_, ns_rows := ?_, ns_adj := ?_, ns_min := ?_,
           k_lt := hk }
  · exact fun p hp => inv.q_vis p (List.mem_cons_of_mem _ hp)
  · exact fun p hp => inv.q_depth_le p (List.mem_cons_of_mem _ hp)
  · exact fun p hp => inv.q_reach p (List.mem_cons_of_mem _ hp)
  · exact fun p hp => inv.q_tight p (List.mem_cons_of_mem _ hp)
  · intro p hp
    refine ⟨hsorted.1 p hp, ?_⟩
    exact inv.q_window (x, k) hhead p (List.mem_cons_of_mem _ hp)
  · intro z hz
    rcases inv.vis_closed z hz with ⟨p, hp, hpz⟩ | h | h
    · rcases List.mem_cons.mp hp with rfl | hp'
      · exact Or.inl hpz.symm
      · exact Or.inr (Or.inl ⟨p, hp', hpz⟩)
    · exact Or.inr (Or.inr (Or.inl h))
    · exact Or.inr (Or.inr (Or.inr h))
  · intro y hy
    obtain ⟨_, n, hn, hny⟩ := adjacent_endpoints hy hc
    refine Or.inr ⟨n, List.mem_filter.mpr ⟨hn, ?_⟩, hny⟩
    rw [List.contains_iff_exists_mem_beq]
    refine ⟨y, (mem_neighborIds_iff hwf).mpr hy, ?_⟩
    simp [hny]
  · exact fun n hn => (List.mem_filter.mp hn).1
  · intro n hn
    have := (List.mem_filter.mp hn).2
    rw [List.contains_iff_exists_mem_beq] at this
    obtain ⟨y, hy, hbeq⟩ := this
    have : n.id = y := by simpa using hbeq
    exact (mem_neighborIds_iff hwf).mp (this ▸ hy)
  · intro n hn hnv j hj
    by_contra hlt
    push_neg at hlt
    have hjk : j ≤ k := by omega
    refine hnv (bfs_complete_aux inv j n.id hj (by omega) ?_)
    intro p hp
    rcases List.mem_cons.mp hp with rfl | hp'
    · exact hjk
    · exact le_trans hjk (hsorted.1 p hp')

/-- When the fetched rows are exhausted, the mid-expansion invariant yields
the loop invariant for the next iteration. -/
theorem midInv_to_bfsInv {db : DB} {label : Option String} {depth : Nat}
    {start x : String} {k : Nat} {q vis res}
    (mid : MidInv db label depth start x k [] q vis res) :
    BfsInv db label depth start q vis res := by
  refine { vis_eq := mid.vis_eq, res_nodup := mid.res_nodup,
           res_rows := mid.res_rows, res_not_start := mid.res_not_start,
           q_vis := mid.q_vis, q_depth_le := mid.q_depth_le,
           q_reach := mid.q_reach, q_tight := mid.q_tight,
           q_sorted := mid.q_sorted, q_window := ?_,
           vis_reach := mid.vis_reach, vis_closed := ?_ }
  · intro p hp p' hp'
    have h1 := (mid.q_levels p hp).1
    have h2 := (mid.q_levels p' hp').2
    omega
  · intro z hz
    rcases mid.vis_closed z hz with rfl | h | h | h
    · refine Or.inr (Or.inr ?_)
      intro y hy
      rcases mid.x_closure y hy with h | ⟨n, hn, _⟩
      · exact h
      · cases hn
    · exact Or.inl h
    · exact Or.inr (Or.inl h)
    · exact Or.inr (Or.inr h)

/-- The inner loop only appends to the result list. -/
theorem visitNew_res_mono {k1 : Nat} :
    ∀ (ns : List NodeRec) (q : List (String × Nat)) (vis : List String)
      (res : List NodeRec), ∀ n ∈ res, n ∈ (visitNew k1 ns q vis res).2.2
  | [], _, _, _, n, hn => hn
  | m :: ns, q, vis, res, n, hn => by
      by_cases hv : m.id ∈ vis
      · simp only [visitNew, if_pos hv]
        exact visitNew_res_mono ns q vis res n hn
      · simp only [visitNew, if_neg hv]
        exact visitNew_res_mono ns _ _ _ n (List.mem_append_left _ hn)

/-- With duplicate-free row ids, a row is determined by its id. -/
theorem nodeRow_inj {ns : List NodeRec} (hnd : (ns.map (fun n => n.id)).Nodup) :
    ∀ r ∈ ns, ∀ n ∈ ns, r.id = n.id → r = n := by
  induction ns with
  | nil => intro r hr; cases hr
  | cons a l ih =>
      simp only [List.map_cons, List.nodup_cons] at hnd
      intro r hr n hn hid
      rcases List.mem_cons.mp hr with rfl | hr' <;> rcases List.mem_cons.mp hn with rfl | hn'
      · rfl
      · exact absurd (hid ▸ List.mem_map.mpr ⟨n, hn', rfl⟩) hnd.1
      · exact absurd (hid ▸ List.mem_map.mpr ⟨r, hr', rfl⟩) hnd.1
      · exact ih hnd.2 r hr' n hn' hid

/-- Master theorem for the BFS drain loop: starting from any state satisfying
the invariant, the final result list extends the current one, contains only
stored non-start rows reachable within the depth bound, has duplicate-free
ids, and covers every id reachable within the bound. -/
theorem bfsLoop_spec {db : DB} {label : Option String} {depth : Nat}
    {start : String} (hc : edgeRefsOk db) (hwf : labelWf label) :
    ∀ (q : List (String × Nat)) (vis : List String) (res : List NodeRec),
      BfsInv db label depth start q vis res →
      (∀ n ∈ res, n ∈ bfsLoop db label depth q vis res) ∧
      (∀ n ∈ bfsLoop db label depth q vis res,
        n ∈ db.nodes ∧ n.id ≠ start ∧ reachWithin db label start depth n.id) ∧
      (resIds (bfsLoop db label depth q vis res)).Nodup ∧
      (∀ y, reachWithin db label start depth y →
        y = start ∨ y ∈ resIds (bfsLoop db label depth q vis res)) := by
  intro q vis res
  induction q, vis, res using bfsLoop.induct db label depth with
  | case1 vis res =>
      intro inv
      simp only [bfsLoop]
      refine ⟨fun n hn => hn, ?_, inv.res_nodup, ?_⟩
      · intro n hn
        refine ⟨inv.res_rows n hn, inv.res_not_start n hn, ?_⟩
        exact inv.vis_reach n.id ((inv.vis_eq n.id).mpr
          (Or.inr (List.mem_map.mpr ⟨n, hn, rfl⟩)))
      · intro y hy
        obtain ⟨j, hj, hp⟩ := hy
        have hv : y ∈ [] ∨ True := Or.inr trivial
        have : y ∈ vis := bfs_complete_aux inv j y hp hj (by intro p hp'; cases hp')
        exact (inv.vis_eq y).mp this
  | case2 x k rest vis res hk ih =>
      intro inv
      simp only [bfsLoop, if_pos hk]
      exact ih (bfsInv_skip inv hk)
  | case3 x k rest vis res hk fetched s ih =>
      intro inv
      simp only [bfsLoop, if_neg hk]
      have hmid := bfsInv_expand hc hwf inv (by omega)
      have hmid' := visitNew_midInv _ _ _ _ hmid
      have hinv' := midInv_to_bfsInv hmid'
      have := ih hinv'
      refine ⟨?_, this.2.1, this.2.2.1, this.2.2.2⟩
      intro n hn
      exact this.1 n (visitNew_res_mono _ _ _ _ n hn)

/-- The initial BFS state (queue seeded with the start node at depth 0,
visited seeded with the start node, empty results) satisfies the invariant. -/
theorem bfsInv_init (db : DB) (label : Option String) (depth : Nat)
    (start : String) :
    BfsInv db label depth start [(start, 0)] [start] [] := by
  refine { vis_eq := ?_, res_nodup := List.nodup_nil, res_rows := ?_,
           res_not_start := ?_, q_vis := ?_, q_depth_le := ?_, q_reach := ?_,
           q_tight := ?_, q_sorted := List.pairwise_singleton _ _,
           q_window := ?_, vis_reach := ?_, vis_closed := ?_ }
  · intro z
    simp [resIds]
  · intro n hn
    cases hn
  · intro n hn
    cases hn
  · intro p hp
    rw [List.mem_singleton.mp hp]
    exact List.mem_singleton.mpr rfl
  · intro p hp
    rw [List.mem_singleton.mp hp]
    exact Nat.zero_le _
  · intro p hp
    rw [List.mem_singleton.mp hp]
    exact ⟨0, le_refl _, ReachN.refl⟩
  · intro p hp
    rw [List.mem_singleton.mp hp]
    exact fun j _ => Nat.zero_le _
  · intro p hp p' hp'
    rw [List.mem_singleton.mp hp, List.mem_singleton.mp hp']
    omega
  · intro z hz
    rw [List.mem_singleton.mp hz]
    exact ⟨0, Nat.zero_le _, ReachN.refl⟩
  · intro z hz
    rw [List.mem_singleton.mp hz]
    exact Or.inl ⟨(start, 0), List.mem_singleton.mpr rfl, rfl⟩

/-- C1: for every finite stored graph, start node id, optional (truthy) edge
label and integer depth, `get_connected_nodes` terminates (it is a total
function here, cycles included) and returns exactly the distinct stored nodes
reachable from the start within `depth` undirected, label-respecting hops,
excluding the start node itself, each exactly once; and the result is
immediately empty when `depth ≤ 0`.  The graph is assumed well-formed (edges
reference stored nodes, row ids duplicate-free), as the engine maintains. -/
theorem C1_get_connected_nodes_bfs (db : DB) (node_id : String)
    (label : Option String) (depth : Int)
    (hc : edgeRefsOk db) (hwf : labelWf label)
    (hnd : (db.nodes.map (fun n => n.id)).Nodup) :
    (depth ≤ 0 → get_connected_nodes db node_id label depth = []) ∧
    (∀ n, n ∈ get_connected_nodes db node_id label depth ↔
      (n ∈ db.nodes ∧ n.id ≠ node_id ∧
        reachWithin db label node_id depth.toNat n.id)) ∧
    (resIds (get_connected_nodes db node_id label depth)).Nodup := by
  by_cases hd : depth ≤ 0
  · refine ⟨fun _ => by simp [get_connected_nodes, hd], ?_, ?_⟩
    · intro n
      simp only [get_connected_nodes, if_pos hd]
      constructor
      · intro h
        cases h
      · rintro ⟨hn, hne, hr⟩
        have h0 : depth.toNat = 0 := Int.toNat_of_nonpos hd
        rw [h0] at hr
        obtain ⟨j, hj, hp⟩ := hr
        rw [Nat.le_zero.mp hj] at hp
        exact absurd (reachN_zero hp) hne
    · simp [get_connected_nodes, hd, resIds]
  · have h := bfsLoop_spec hc hwf [(node_id, 0)] [node_id] []
      (bfsInv_init db label depth.toNat node_id)
    have hout : get_connected_nodes db node_id label depth =
        bfsLoop db label depth.toNat [(node_id, 0)] [node_id] [] := by
      simp [get_connected_nodes, hd]
    refine ⟨fun h0 => absurd h0 hd, ?_, by rw [hout]; exact h.2.2.1⟩
    intro n
    rw [hout]
    constructor
    · intro hn
      exact h.2.1 n hn
    · rintro ⟨hn, hne, hr⟩
      rcases h.2.2.2 n.id hr with h0 | h0
      · exact absurd h0 hne
      · obtain ⟨r, hr', hrid⟩ := List.mem_map.mp h0
        have hreq : r = n := nodeRow_inj hnd r (h.2.1 r hr').1 n hn hrid
        rw [← hreq]
        exact hr'

/-- The chain A-B-C-D of the spec's BFS depth-bound test, as stored rows. -/
def dbChain : DB :=
  ⟨[⟨"a", NodeType.task, []⟩, ⟨"b", NodeType.task, []⟩,
    ⟨"c", NodeType.task, []⟩, ⟨"d", NodeType.task, []⟩],
   [⟨"e1", "a", "b", "next"⟩, ⟨"e2", "b", "c", "next"⟩, ⟨"e3", "c", "d", "next"⟩]⟩

theorem C1_get_connected_nodes_bfs_witness :
    get_connected_nodes dbChain "a" none 0 = [] ∧
    (resIds (get_connected_nodes dbChain "a" none 2)).Nodup := by
  have hc : edgeRefsOk dbChain := by
    unfold edgeRefsOk
    decide
  have h0 := C1_get_connected_nodes_bfs dbChain "a" none 0 hc
    (fun s hs => by cases hs) (by decide)
  have h2 := C1_get_connected_nodes_bfs dbChain "a" none 2 hc
    (fun s hs => by cases hs) (by decide)
  exact ⟨h0.1 (by decide), h2.2.2⟩

/-! ## The engine's write operations as a transition system (for the
referential-integrity invariant) -/

/-- One engine write operation, with server-assigned ids and clock readings
as explicit data. -/
inductive Op where
  | createNode (newId : String) (t : NodeType) (props : PropMap) (now : Nat)
  | updateNode (node_id : String) (props : PropMap) (now : Nat)
  | deleteNode (node_id : String)
  | createEdge (newId source_id target_id label : String)
  | deleteEdge (edge_id : String)
  | deleteEdgeByNodes (source_id target_id label : String)
  | renameTag (oldT newT : String) (now : Nat)

/-- Apply one operation to the store; a raised error leaves the store as it
was (the failing operation commits nothing). -/
def applyOp (db : DB) : Op → DB
  | Op.createNode i t p now =>
      match create_node db i t p now with
      | Except.ok r => r.1
      | Except.error _ => db
  | Op.updateNode i p now =>
      match update_node db i p now with
      | Except.ok r => r.1
      | Except.error _ => db
  | Op.deleteNode i => (delete_node db i).1
  | Op.createEdge i s t l =>
      match create_edge db i s t l with
      | Except.ok r => r.1
      | Except.error _ => db
  | Op.deleteEdge i => (delete_edge db i).1
  | Op.deleteEdgeByNodes s t l => (delete_edge_by_nodes db s t l).1
  | Op.renameTag o n now =>
      match rename_tag db o n now with
      | Except.ok r => r.1
      | Except.error _ => db

theorem setPropsFirst_ids (ns : List NodeRec) (i : String) (vp : PropMap) :
    (setPropsFirst ns i vp).map (fun n => n.id) = ns.map (fun n => n.id) := by
  induction ns with
  | nil => rfl
  | cons a l ih =>
      unfold setPropsFirst
      by_cases h : a.id = i
      · simp [h]
      · simp [h, ih]

theorem mem_removeFirstNode_of_ne {ns : List NodeRec} {i : String} {n : NodeRec}
    (hn : n ∈ ns) (hne : n.id ≠ i) : n ∈ removeFirstNode ns i := by
  induction ns with
  | nil => cases hn
  | cons a l ih =>
      unfold removeFirstNode
      rcases List.mem_cons.mp hn with rfl | h
      · rw [if_neg hne]
        exact List.mem_cons_self _ _
      · by_cases ha : a.id = i
        · rw [if_pos ha]
          exact h
        · rw [if_neg ha]
          exact List.mem_cons_of_mem _ (ih h)

theorem mem_removeFirstEdge {es : List EdgeRec} {p : EdgeRec → Bool} {e : EdgeRec}
    (he : e ∈ removeFirstEdge es p) : e ∈ es := by
  induction es with
  | nil => cases he
  | cons a l ih =>
      unfold removeFirstEdge at he
      by_cases ha : p a = true
      · rw [if_pos ha] at he
        exact List.mem_cons_of_mem _ he
      · rw [if_neg ha] at he
        rcases List.mem_cons.mp he with rfl | h
        · exact List.mem_cons_self _ _
        · exact List.mem_cons_of_mem _ (ih h)

theorem rename_tag_go_ids (oldT newT : String) (now : Nat) :
    ∀ (ns ns' upd : List NodeRec),
      rename_tag_go oldT newT now ns = Except.ok (ns', upd) →
      ns'.map (fun n => n.id) = ns.map (fun n => n.id) := by
  intro ns
  induction ns with
  | nil =>
      intro ns' upd h
      simp only [rename_tag_go] at h
      cases h
      rfl
  | cons a l ih =>
      intro ns' upd h
      simp only [rename_tag_go] at h
      by_cases ha : renameSel oldT a
      · rw [if_pos ha] at h
        cases hv : validateProps a.type now
            (pmSet a.properties "tags"
              (Value.vlist (sortDedup ((tagsOf a).map
                (fun t => if t = oldT then newT else t))))) with
        | error e =>
            rw [hv] at h
            cases h
        | ok vp =>
            rw [hv] at h
            cases hgo : rename_tag_go oldT newT now l with
            | error e =>
                rw [hgo] at h
                cases h
            | ok r =>
                rw [hgo] at h
                cases h
                simp [ih r.1 r.2 (by rw [hgo])]
      · rw [if_neg ha] at h
        cases hgo : rename_tag_go oldT newT now l with
        | error e =>
            rw [hgo] at h
            cases h
        | ok r =>
            rw [hgo] at h
            cases h
            simp [ih r.1 r.2 (by rw [hgo])]

theorem create_node_ok {db : DB} {i : String} {t : NodeType} {p : PropMap}
    {now : Nat} {db' : DB} {nd : NodeRec}
    (h : create_node db i t p now = Except.ok (db', nd)) :
    db'.nodes = db.nodes ++ [nd] ∧ db'.edges = db.edges := by
  unfold create_node at h
  cases hv : validateProps t now p with
  | error e =>
      rw [hv] at h
      simp only [bind, Except.bind] at h
      cases h
  | ok vp =>
      rw [hv] at h
      simp only [bind, Except.bind] at h
      cases h
      exact ⟨rfl, rfl⟩

theorem update_node_ok {db : DB} {i : String} {p : PropMap} {now : Nat}
    {db' : DB} {nd : NodeRec} (h : update_node db i p now = Except.ok (db', nd)) :
    db'.nodes.map (fun n => n.id) = db.nodes.map (fun n => n.id) ∧
      db'.edges = db.edges := by
  unfold update_node at h
  cases hf : db.nodes.find? (fun n => n.id == i) with
  | none =>
      rw [hf] at h
      cases h
  | some nd0 =>
      rw [hf] at h
      simp only [bind, Except.bind] at h
      split at h
      · cases h
      · cases h
        exact ⟨setPropsFirst_ids _ _ _, rfl⟩

theorem create_edge_ok {db : DB} {i s t l : String} {db' : DB} {e : EdgeRec}
    (h : create_edge db i s t l = Except.ok (db', e)) :
    db'.nodes = db.nodes ∧ db'.edges = db.edges ++ [e] ∧
      e.source_id = s ∧ e.target_id = t ∧
      db.nodes.any (fun n => n.id == s) = true ∧
      db.nodes.any (fun n => n.id == t) = true := by
  unfold create_edge at h
  by_cases hs : db.nodes.any (fun n => n.id == s) = true
  · rw [if_neg (by simp [hs])] at h
    by_cases ht : db.nodes.any (fun n => n.id == t) = true
    · rw [if_neg (by simp [ht])] at h
      cases h
      exact ⟨rfl, rfl, rfl, rfl, hs, ht⟩
    · rw [if_pos (by simpa using ht)] at h
      cases h
  · rw [if_pos (by simpa using hs)] at h
    cases h

theorem rename_tag_ok {db : DB} {o n : String} {now : Nat} {db' : DB}
    {upd : List NodeRec} (h : rename_tag db o n now = Except.ok (db', upd)) :
    db'.nodes.map (fun m => m.id) = db.nodes.map (fun m => m.id) ∧
      db'.edges = db.edges := by
  unfold rename_tag at h
  cases hgo : rename_tag_go o n now db.nodes with
  | error e =>
      rw [hgo] at h
      simp only [bind, Except.bind] at h
      cases h
  | ok r =>
      rw [hgo] at h
      simp only [bind, Except.bind] at h
      cases h
      exact ⟨rename_tag_go_ids o n now db.nodes r.1 r.2 (by rw [hgo]), rfl⟩

theorem node_exists_iff (ns : List NodeRec) (x : String) :
    (∃ n ∈ ns, n.id = x) ↔ x ∈ ns.map (fun n => n.id) := by
  constructor
  · rintro ⟨n, hn, rfl⟩
    exact List.mem_map.mpr ⟨n, hn, rfl⟩
  · intro h
    obtain ⟨n, hn, hx⟩ := List.mem_map.mp h
    exact ⟨n, hn, hx⟩

/-- Every single engine write preserves edge referential integrity. -/
theorem applyOp_edgeRefsOk {db : DB} (h : edgeRefsOk db) (op : Op) :
    edgeRefsOk (applyOp db op) := by
  cases op with
  | createNode i t p now =>
      simp only [applyOp]
      cases hcv : create_node db i t p now with
      | error e => exact h
      | ok r =>
          obtain ⟨hn, he⟩ := create_node_ok hcv
          intro e' he'
          rw [he] at he'
          obtain ⟨⟨n1, hn1, h1⟩, ⟨n2, hn2, h2⟩⟩ := h e' he'
          exact ⟨⟨n1, by rw [hn]; exact List.mem_append_left _ hn1, h1⟩,
                 ⟨n2, by rw [hn]; exact List.mem_append_left _ hn2, h2⟩⟩
  | updateNode i p now =>
      simp only [applyOp]
      cases hcv : update_node db i p now with
      | error e => exact h
      | ok r =>
          obtain ⟨hn, he⟩ := update_node_ok hcv
          intro e' he'
          rw [he] at he'
          obtain ⟨h1, h2⟩ := h e' he'
          rw [node_exists_iff] at h1 h2 ⊢
          rw [hn]
          refine ⟨h1, ?_⟩
          rw [node_exists_iff, hn]
          exact h2
  | deleteNode i =>
      simp only [applyOp]
      unfold delete_node
      by_cases hex : db.nodes.any (fun n => n.id == i) = true
      · rw [if_pos hex]
        intro e' he'
        have hmem := List.mem_filter.mp he'
        have hcond : ¬ (e'.source_id = i ∨ e'.target_id = i) := by
          simpa using hmem.2
        push_neg at hcond
        obtain ⟨⟨n1, hn1, h1⟩, ⟨n2, hn2, h2⟩⟩ := h e' hmem.1
        refine ⟨⟨n1, mem_removeFirstNode_of_ne hn1 (by rw [h1]; exact hcond.1), h1⟩,
               ⟨n2, mem_removeFirstNode_of_ne hn2 (by rw [h2]; exact hcond.2), h2⟩⟩
      · rw [if_neg hex]
        exact h
  | createEdge i s t l =>
      simp only [applyOp]
      cases hcv : create_edge db i s t l with
      | error e => exact h
      | ok r =>
          obtain ⟨hn, he, hes, het, hs, ht⟩ := create_edge_ok hcv
          intro e' he'
          rw [he] at he'
          rw [hn]
          rcases List.mem_append.mp he' with hold | hnew
          · exact h e' hold
          · rw [List.mem_singleton.mp hnew]
            obtain ⟨n1, hn1, hb1⟩ := List.any_eq_true.mp hs
            obtain ⟨n2, hn2, hb2⟩ := List.any_eq_true.mp ht
            rw [hes, het]
            exact ⟨⟨n1, hn1, by simpa using hb1⟩, ⟨n2, hn2, by simpa using hb2⟩⟩
  | deleteEdge i =>
      simp only [applyOp]
      unfold delete_edge
      by_cases hex : db.edges.any (fun e => e.id == i) = true
      · rw [if_pos hex]
        intro e' he'
        exact h e' (mem_removeFirstEdge he')
      · rw [if_neg hex]
        exact h
  | deleteEdgeByNodes s t l =>
      simp only [applyOp]
      unfold delete_edge_by_nodes
      by_cases hex : db.edges.any
          (fun e => e.source_id == s && e.target_id == t && e.label == l) = true
      · rw [if_pos hex]
        intro e' he'
        exact h e' (mem_removeFirstEdge he')
      · rw [if_neg hex]
        exact h
  | renameTag o n now =>
      simp only [applyOp]
      cases hcv : rename_tag db o n now with
      | error e => exact h
      | ok r =>
          obtain ⟨hn, he⟩ := rename_tag_ok hcv
          intro e' he'
          rw [he] at he'
          obtain ⟨h1, h2⟩ := h e' he'
          rw [node_exists_iff] at h1 h2 ⊢
          rw [hn]
          refine ⟨h1, ?_⟩
          rw [node_exists_iff, hn]
          exact h2

/-- C2: in every store state reachable from the empty store via the engine's
write operations, every edge's `source_id` and `target_id` reference existing
nodes; `create_edge` errors naming the missing endpoint and persists nothing
when an endpoint does not exist; and `delete_node` removes, in the same
operation, every edge whose source or target is the deleted node. -/
theorem C2_edge_referential_integrity :
    (∀ ops : List Op, edgeRefsOk (ops.foldl applyOp emptyDB)) ∧
    (∀ (db : DB) (newId s t l : String),
        db.nodes.any (fun n => n.id == s) = false →
        create_edge db newId s t l = Except.error (Err.sourceNotFound s) ∧
        applyOp db (Op.createEdge newId s t l) = db) ∧
    (∀ (db : DB) (newId s t l : String),
        db.nodes.any (fun n => n.id == s) = true →
        db.nodes.any (fun n => n.id == t) = false →
        create_edge db newId s t l = Except.error (Err.targetNotFound t) ∧
        applyOp db (Op.createEdge newId s t l) = db) ∧
    (∀ (db : DB) (node_id : String),
        (delete_node db node_id).2 = true →
        ∀ e ∈ (delete_node db node_id).1.edges,
          e.source_id ≠ node_id ∧ e.target_id ≠ node_id) := by
  have hfold : ∀ (ops : List Op) (db : DB), edgeRefsOk db →
      edgeRefsOk (ops.foldl applyOp db) := by
    intro ops
    induction ops with
    | nil => exact fun db h => h
    | cons op rest ih =>
        intro db h
        exact ih (applyOp db op) (applyOp_edgeRefsOk h op)
  have hsrc : ∀ (db : DB) (newId s t l : String),
      db.nodes.any (fun n => n.id == s) = false →
      create_edge db newId s t l = Except.error (Err.sourceNotFound s) := by
    intro db newId s t l hs
    unfold create_edge
    rw [if_pos (by simp [hs])]
  have htgt : ∀ (db : DB) (newId s t l : String),
      db.nodes.any (fun n => n.id == s) = true →
      db.nodes.any (fun n => n.id == t) = false →
      create_edge db newId s t l = Except.error (Err.targetNotFound t) := by
    intro db newId s t l hs ht
    unfold create_edge
    rw [if_neg (by simp [hs]), if_pos (by simp [ht])]
  refine ⟨fun ops => hfold ops emptyDB (fun e he => by cases he), ?_, ?_, ?_⟩
  · intro db newId s t l hs
    refine ⟨hsrc db newId s t l hs, ?_⟩
    simp only [applyOp, hsrc db newId s t l hs]
  · intro db newId s t l hs ht
    refine ⟨htgt db newId s t l hs ht, ?_⟩
    simp only [applyOp, htgt db newId s t l hs ht]
  · intro db node_id hdel e he
    unfold delete_node at hdel he
    by_cases hex : db.nodes.any (fun n => n.id == node_id) = true
    · rw [if_pos hex] at he
      have hmem := List.mem_filter.mp he
      have : ¬ (e.source_id = node_id ∨ e.target_id = node_id) := by
        simpa using hmem.2
      push_neg at this
      exact this
    · rw [if_neg hex] at hdel
      cases hdel

/-- A one-node store for exercising the edge-endpoint checks. -/
def dbOneNode : DB := ⟨[⟨"a", NodeType.person, []⟩], []⟩

theorem C2_edge_referential_integrity_witness :
    edgeRefsOk ([Op.createNode "a" NodeType.person [("name", Value.vstr "Ann")] 0,
        Op.createEdge "e1" "a" "zz" "knows"].foldl applyOp emptyDB) ∧
    create_edge dbOneNode "e1" "zz" "a" "knows" =
      Except.error (Err.sourceNotFound "zz") ∧
    create_edge dbOneNode "e1" "a" "zz" "knows" =
      Except.error (Err.targetNotFound "zz") := by
  refine ⟨C2_edge_referential_integrity.1 _, ?_, ?_⟩
  · exact (C2_edge_referential_integrity.2.1 dbOneNode "e1" "zz" "a" "knows"
      (by decide)).1
  · exact (C2_edge_referential_integrity.2.2.1 dbOneNode "e1" "a" "zz" "knows"
      (by decide) (by decide)).1

/-! ## Dictionary lemmas (merge semantics) -/

theorem pmGet_map_overwrite (k k' : String) (v : Value) (hne : k' ≠ k) :
    ∀ m : PropMap,
      pmGet (m.map (fun p => if p.1 = k then (k, v) else p)) k' = pmGet m k'
  | [] => rfl
  | a :: l => by
      have hrec := pmGet_map_overwrite k k' v hne l
      by_cases ha : a.1 = k
      · have h1 : ¬ k = k' := fun h => hne h.symm
        have h2 : ¬ a.1 = k' := by rw [ha]; exact h1
        simp only [List.map_cons, if_pos ha, pmGet, if_neg h1, if_neg h2]
        exact hrec
      · simp only [List.map_cons, if_neg ha, pmGet]
        by_cases hb : a.1 = k'
        · simp only [if_pos hb]
        · simp only [if_neg hb]
          exact hrec

theorem pmGet_append_single_ne (k k' : String) (v : Value) (hne : k' ≠ k) :
    ∀ m : PropMap, pmGet (m ++ [(k, v)]) k' = pmGet m k'
  | [] => by
      have h1 : ¬ k = k' := fun h => hne h.symm
      simp [pmGet, h1]
  | a :: l => by
      have hrec := pmGet_append_single_ne k k' v hne l
      simp only [List.cons_append, pmGet]
      by_cases hb : a.1 = k'
      · simp only [if_pos hb]
      · simp only [if_neg hb]
        exact hrec

theorem pmGet_pmSet_ne (m : PropMap) (k k' : String) (v : Value) (hne : k' ≠ k) :
    pmGet (pmSet m k v) k' = pmGet m k' := by
  unfold pmSet
  by_cases h : m.any (fun p => p.1 == k) = true
  · rw [if_pos h]
    exact pmGet_map_overwrite k k' v hne m
  · rw [if_neg h]
    exact pmGet_append_single_ne k k' v hne m

theorem pmGet_pmSet_self (m : PropMap) (k : String) (v : Value) :
    pmGet (pmSet m k v) k = some v := by
  unfold pmSet
  by_cases h : m.any (fun p => p.1 == k) = true
  · rw [if_pos h]
    induction m with
    | nil => cases h
    | cons a l ih =>
        by_cases ha : a.1 = k
        · simp [pmGet, ha]
        · simp only [List.any_cons, Bool.or_eq_true] at h
          have hl : l.any (fun p => p.1 == k) = true := by
            rcases h with h | h
            · exact absurd (by simpa using h) ha
            · exact h
          simp only [List.map_cons, if_neg ha, pmGet, ha, if_false]
          exact ih hl
  · rw [if_neg h]
    induction m with
    | nil => simp [pmGet]
    | cons a l ih =>
        simp only [List.any_cons, Bool.or_eq_true, not_or] at h
        have ha : ¬ a.1 = k := by simpa using h.1
        have ih' := ih (by simpa using h.2)
        simp only [List.cons_append, pmGet, if_neg ha]
        exact ih'

theorem pmGet_not_mem_keys {m : PropMap} {k : String} (h : ¬ k ∈ pmKeys m) :
    pmGet m k = none := by
  induction m with
  | nil => rfl
  | cons a l ih =>
      simp only [pmKeys, List.map_cons, List.mem_cons, not_or] at h
      have ha : ¬ a.1 = k := fun he => h.1 he.symm
      have ih' := ih (by simpa [pmKeys] using h.2)
      simp only [pmGet, if_neg ha]
      exact ih'

theorem pmGet_mem_keys {m : PropMap} {k : String} (h : k ∈ pmKeys m) :
    ∃ v, pmGet m k = some v := by
  induction m with
  | nil => cases h
  | cons a l ih =>
      by_cases ha : a.1 = k
      · exact ⟨a.2, by simp [pmGet, ha]⟩
      · simp only [pmKeys, List.map_cons, List.mem_cons] at h
        rcases h with h | h
        · exact absurd h.symm ha
        · obtain ⟨v, hv⟩ := ih (by simpa [pmKeys] using h)
          exact ⟨v, by simp only [pmGet, if_neg ha]; exact hv⟩

theorem pmUpdate_get (u : PropMap) :
    ∀ (m : PropMap), (pmKeys u).Nodup →
      ∀ k, pmGet (pmUpdate m u) k =
        if k ∈ pmKeys u then pmGet u k else pmGet m k := by
  induction u with
  | nil =>
      intro m _ k
      simp [pmUpdate, pmKeys]
  | cons p u' ih =>
      intro m hnd k
      have hstep : pmUpdate m (p :: u') = pmUpdate (pmSet m p.1 p.2) u' := rfl
      simp only [pmKeys, List.map_cons, List.nodup_cons] at hnd
      rw [hstep, ih (pmSet m p.1 p.2) hnd.2 k]
      by_cases hk : k = p.1
      · have hknot : ¬ k ∈ pmKeys u' := by rw [hk]; exact hnd.1
        have hmem : k ∈ pmKeys (p :: u') := by simp [pmKeys, hk]
        rw [if_neg hknot, if_pos hmem, hk, pmGet_pmSet_self]
        simp [pmGet]
      · by_cases hk' : k ∈ pmKeys u'
        · have hmem : k ∈ pmKeys (p :: u') := by
            simp only [pmKeys, List.map_cons, List.mem_cons]
            exact Or.inr (by simpa [pmKeys] using hk')
          rw [if_pos hk', if_pos hmem]
          have hpk : ¬ p.1 = k := fun h => hk h.symm
          simp only [pmGet, if_neg hpk]
        · have hmem : ¬ k ∈ pmKeys (p :: u') := by
            simp only [pmKeys, List.map_cons, List.mem_cons, not_or]
            exact ⟨hk, by simpa [pmKeys] using hk'⟩
          rw [if_neg hk', if_neg hmem]
          exact pmGet_pmSet_ne m p.1 k p.2 hk

/-! ## Validation lemmas -/

theorem checkReqStr_present {m : PropMap} {f : String} {v x : Value}
    (hin : pmGet m f = some v) (h : checkReqStr m f = Except.ok x) : x = v := by
  unfold checkReqStr at h
  rw [hin] at h
  cases v <;> cases h <;> rfl

theorem checkEnum_present {m : PropMap} {f dflt : String} {allowed : List String}
    {v x : Value} (hin : pmGet m f = some v)
    (h : checkEnum m f allowed dflt = Except.ok x) : x = v := by
  cases v with
  | vstr s =>
      simp only [checkEnum, hin] at h
      split at h
      · cases h
        rfl
      · cases h
  | vlist xs =>
      simp only [checkEnum, hin] at h
      cases h
  | vmap d =>
      simp only [checkEnum, hin] at h
      cases h
  | vdt t =>
      simp only [checkEnum, hin] at h
      cases h
  | vnull =>
      simp only [checkEnum, hin] at h
      cases h

theorem checkTags_present {m : PropMap} {v x : Value}
    (hin : pmGet m "tags" = some v) (h : checkTags m = Except.ok x) : x = v := by
  unfold checkTags at h
  rw [hin] at h
  cases v <;> cases h <;> rfl

theorem checkDt_present {m : PropMap} {f : String} {now : Nat} {v x : Value}
    (hin : pmGet m f = some v) (h : checkDt m f now = Except.ok x) : x = v := by
  unfold checkDt at h
  rw [hin] at h
  cases v <;> cases h <;> rfl

theorem checkDtOrNull_present {m : PropMap} {f : String} {v x : Value}
    (hin : pmGet m f = some v) (h : checkDtOrNull m f = Except.ok x) : x = v := by
  unfold checkDtOrNull at h
  rw [hin] at h
  cases v <;> cases h <;> rfl

theorem checkMeta_present {m : PropMap} {v x : Value}
    (hin : pmGet m "metadata" = some v) (h : checkMeta m = Except.ok x) : x = v := by
  unfold checkMeta at h
  rw [hin] at h
  cases v <;> cases h <;> rfl

theorem validateProps_task_ok {now : Nat} {m vp : PropMap}
    (h : validateProps NodeType.task now m = Except.ok vp) :
    ∃ d st tg ca ma dd,
      checkReqStr m "description" = Except.ok d ∧
      checkEnum m "status" taskStatuses "todo" = Except.ok st ∧
      checkTags m = Except.ok tg ∧
      checkDt m "created_at" now = Except.ok ca ∧
      checkDt m "modified_at" now = Except.ok ma ∧
      checkDtOrNull m "due_date" = Except.ok dd ∧
      vp = [("description", d), ("status", st), ("tags", tg),
            ("created_at", ca), ("modified_at", ma), ("due_date", dd)] := by
  simp only [validateProps, bind, Except.bind] at h
  split at h
  · cases h
  · split at h
    · cases h
    · split at h
      · cases h
      · split at h
        · cases h
        · split at h
          · cases h
          · split at h
            · cases h
            · cases h
              refine ⟨_, _, _, _, _, _, ?_, ?_, ?_, ?_, ?_, ?_, rfl⟩ <;> assumption

theorem validateProps_note_ok {now : Nat} {m vp : PropMap}
    (h : validateProps NodeType.note now m = Except.ok vp) :
    ∃ ti co tg ca ma,
      checkReqStr m "title" = Except.ok ti ∧
      checkReqStr m "content" = Except.ok co ∧
      checkTags m = Except.ok tg ∧
      checkDt m "created_at" now = Except.ok ca ∧
      checkDt m "modified_at" now = Except.ok ma ∧
      vp = [("title", ti), ("content", co), ("tags", tg),
            ("created_at", ca), ("modified_at", ma)] := by
  simp only [validateProps, bind, Except.bind] at h
  split at h
  · cases h
  · split at h
    · cases h
    · split at h
      · cases h
      · split at h
        · cases h
        · split at h
          · cases h
          · cases h
            refine ⟨_, _, _, _, _, ?_, ?_, ?_, ?_, ?_, rfl⟩ <;> assumption

theorem validateProps_person_ok {now : Nat} {m vp : PropMap}
    (h : validateProps NodeType.person now m = Except.ok vp) :
    ∃ na tg me ca ma,
      checkReqStr m "name" = Except.ok na ∧
      checkTags m = Except.ok tg ∧
      checkMeta m = Except.ok me ∧
      checkDt m "created_at" now = Except.ok ca ∧
      checkDt m "modified_at" now = Except.ok ma ∧
      vp = [("name", na), ("tags", tg), ("metadata", me),
            ("created_at", ca), ("modified_at", ma)] := by
  simp only [validateProps, bind, Except.bind] at h
  split at h
  · cases h
  · split at h
    · cases h
    · split at h
      · cases h
      · split at h
        · cases h
        · split at h
          · cases h
          · cases h
            refine ⟨_, _, _, _, _, ?_, ?_, ?_, ?_, ?_, rfl⟩ <;> assumption

theorem validateProps_project_ok {now : Nat} {m vp : PropMap}
    (h : validateProps NodeType.project now m = Except.ok vp) :
    ∃ na d tg st ca ma,
      checkReqStr m "name" = Except.ok na ∧
      checkReqStr m "description" = Except.ok d ∧
      checkTags m = Except.ok tg ∧
      checkEnum m "status" projectStatuses "active" = Except.ok st ∧
      checkDt m "created_at" now = Except.ok ca ∧
      checkDt m "modified_at" now = Except.ok ma ∧
      vp = [("name", na), ("description", d), ("tags", tg),
            ("status", st), ("created_at", ca), ("modified_at", ma)] := by
  simp only [validateProps, bind, Except.bind] at h
  split at h
  · cases h
  · split at h
    · cases h
    · split at h
      · cases h
      · split at h
        · cases h
        · split at h
          · cases h
          · split at h
            · cases h
            · cases h
              refine ⟨_, _, _, _, _, _, ?_, ?_, ?_, ?_, ?_, ?_, rfl⟩ <;> assumption

theorem validateProps_keys {t : NodeType} {now : Nat} {m vp : PropMap}
    (h : validateProps t now m = Except.ok vp) : pmKeys vp = schemaFields t := by
  cases t with
  | task =>
      obtain ⟨d, st, tg, ca, ma, dd, _, _, _, _, _, _, rfl⟩ := validateProps_task_ok h
      rfl
  | note =>
      obtain ⟨ti, co, tg, ca, ma, _, _, _, _, _, rfl⟩ := validateProps_note_ok h
      rfl
  | person =>
      obtain ⟨na, tg, me, ca, ma, _, _, _, _, _, rfl⟩ := validateProps_person_ok h
      rfl
  | project =>
      obtain ⟨na, d, tg, st, ca, ma, _, _, _, _, _, _, rfl⟩ := validateProps_project_ok h
      rfl

theorem validateProps_preserve {t : NodeType} {now : Nat} {m vp : PropMap}
    (h : validateProps t now m = Except.ok vp) :
    ∀ f ∈ schemaFields t, ∀ v, pmGet m f = some v → pmGet vp f = some v := by
  cases t with
  | task =>
      obtain ⟨d, st, tg, ca, ma, dd, hd, hst, htg, hca, hma, hdd, rfl⟩ :=
        validateProps_task_ok h
      intro f hf v hin
      simp only [schemaFields, List.mem_cons, List.not_mem_nil, or_false] at hf
      rcases hf with rfl | rfl | rfl | rfl | rfl | rfl
      · exact (checkReqStr_present hin hd).symm ▸ rfl
      · exact (checkEnum_present hin hst).symm ▸ rfl
      · exact (checkTags_present hin htg).symm ▸ rfl
      · exact (checkDt_present hin hca).symm ▸ rfl
      · exact (checkDt_present hin hma).symm ▸ rfl
      · exact (checkDtOrNull_present hin hdd).symm ▸ rfl
  | note =>
      obtain ⟨ti, co, tg, ca, ma, hti, hco, htg, hca, hma, rfl⟩ :=
        validateProps_note_ok h
      intro f hf v hin
      simp only [schemaFields, List.mem_cons, List.not_mem_nil, or_false] at hf
      rcases hf with rfl | rfl | rfl | rfl | rfl
      · exact (checkReqStr_present hin hti).symm ▸ rfl
      · exact (checkReqStr_present hin hco).symm ▸ rfl
      · exact (checkTags_present hin htg).symm ▸ rfl
      · exact (checkDt_present hin hca).symm ▸ rfl
      · exact (checkDt_present hin hma).symm ▸ rfl
  | person =>
      obtain ⟨na, tg, me, ca, ma, hna, htg, hme, hca, hma, rfl⟩ :=
        validateProps_person_ok h
      intro f hf v hin
      simp only [schemaFields, List.mem_cons, List.not_mem_nil, or_false] at hf
      rcases hf with rfl | rfl | rfl | rfl | rfl
      · exact (checkReqStr_present hin hna).symm ▸ rfl
      · exact (checkTags_present hin htg).symm ▸ rfl
      · exact (checkMeta_present hin hme).symm ▸ rfl
      · exact (checkDt_present hin hca).symm ▸ rfl
      · exact (checkDt_present hin hma).symm ▸ rfl
  | project =>
      obtain ⟨na, d, tg, st, ca, ma, hna, hd, htg, hst, hca, hma, rfl⟩ :=
        validateProps_project_ok h
      intro f hf v hin
      simp only [schemaFields, List.mem_cons, List.not_mem_nil, or_false] at hf
      rcases hf with rfl | rfl | rfl | rfl | rfl | rfl
      · exact (checkReqStr_present hin hna).symm ▸ rfl
      · exact (checkReqStr_present hin hd).symm ▸ rfl
      · exact (checkTags_present hin htg).symm ▸ rfl
      · exact (checkEnum_present hin hst).symm ▸ rfl
      · exact (checkDt_present hin hca).symm ▸ rfl
      · exact (checkDt_present hin hma).symm ▸ rfl

theorem checkReqStr_congr {m m' : PropMap} {f : String}
    (h : pmGet m f = pmGet m' f) : checkReqStr m f = checkReqStr m' f := by
  unfold checkReqStr
  rw [h]

theorem checkEnum_congr {m m' : PropMap} {f dflt : String} {allowed : List String}
    (h : pmGet m f = pmGet m' f) :
    checkEnum m f allowed dflt = checkEnum m' f allowed dflt := by
  unfold checkEnum
  rw [h]

theorem checkTags_congr {m m' : PropMap} (h : pmGet m "tags" = pmGet m' "tags") :
    checkTags m = checkTags m' := by
  unfold checkTags
  rw [h]

theorem checkDt_congr {m m' : PropMap} {f : String} {now : Nat}
    (h : pmGet m f = pmGet m' f) : checkDt m f now = checkDt m' f now := by
  unfold checkDt
  rw [h]

theorem checkDtOrNull_congr {m m' : PropMap} {f : String}
    (h : pmGet m f = pmGet m' f) : checkDtOrNull m f = checkDtOrNull m' f := by
  unfold checkDtOrNull
  rw [h]

theorem checkMeta_congr {m m' : PropMap}
    (h : pmGet m "metadata" = pmGet m' "metadata") : checkMeta m = checkMeta m' := by
  unfold checkMeta
  rw [h]

/-- Validation reads only the declared fields: two property dictionaries that
agree on the schema's fields validate identically. -/
theorem validateProps_congr {t : NodeType} {now : Nat} {m m' : PropMap}
    (h : ∀ f ∈ schemaFields t, pmGet m f = pmGet m' f) :
    validateProps t now m = validateProps t now m' := by
  cases t with
  | task =>
      simp only [validateProps]
      rw [checkReqStr_congr (h "description" (by simp [schemaFields])),
        checkEnum_congr (h "status" (by simp [schemaFields])),
        checkTags_congr (h "tags" (by simp [schemaFields])),
        checkDt_congr (h "created_at" (by simp [schemaFields])),
        checkDt_congr (h "modified_at" (by simp [schemaFields])),
        checkDtOrNull_congr (h "due_date" (by simp [schemaFields]))]
  | note =>
      simp only [validateProps]
      rw [checkReqStr_congr (h "title" (by simp [schemaFields])),
        checkReqStr_congr (h "content" (by simp [schemaFields])),
        checkTags_congr (h "tags" (by simp [schemaFields])),
        checkDt_congr (h "created_at" (by simp [schemaFields])),
        checkDt_congr (h "modified_at" (by simp [schemaFields]))]
  | person =>
      simp only [validateProps]
      rw [checkReqStr_congr (h "name" (by simp [schemaFields])),
        checkTags_congr (h "tags" (by simp [schemaFields])),
        checkMeta_congr (h "metadata" (by simp [schemaFields])),
        checkDt_congr (h "created_at" (by simp [schemaFields])),
        checkDt_congr (h "modified_at" (by simp [schemaFields]))]
  | project =>
      simp only [validateProps]
      rw [checkReqStr_congr (h "name" (by simp [schemaFields])),
        checkReqStr_congr (h "description" (by simp [schemaFields])),
        checkTags_congr (h "tags" (by simp [schemaFields])),
        checkEnum_congr (h "status" (by simp [schemaFields])),
        checkDt_congr (h "created_at" (by simp [schemaFields])),
        checkDt_congr (h "modified_at" (by simp [schemaFields]))]

theorem pmGet_some_mem_keys {m : PropMap} {k : String} {v : Value}
    (h : pmGet m k = some v) : k ∈ pmKeys m := by
  induction m with
  | nil => cases h
  | cons a l ih =>
      by_cases ha : a.1 = k
      · simp [pmKeys, ha]
      · simp only [pmGet, if_neg ha] at h
        simp only [pmKeys, List.map_cons, List.mem_cons]
        exact Or.inr (by simpa [pmKeys] using ih h)

/-- C3: after a successful `update_node`, the stored properties are the old
properties with exactly the supplied keys overwritten — every schema field
not named in the update is unchanged byte for byte — except `modified_at`,
which is set to the update's clock reading.  The update's keys are assumed to
be declared fields of the node's type (unknown keys are silently dropped by
validation instead; see the C10 theorem), and the stored row has the
validated shape the engine maintains. -/
theorem C3_update_node_merge (db : DB) (node_id : String) (upd : PropMap)
    (now : Nat) (nd0 : NodeRec) (db' : DB) (nd : NodeRec)
    (hfind : db.nodes.find? (fun n => n.id == node_id) = some nd0)
    (hshape : pmKeys nd0.properties = schemaFields nd0.type)
    (hkeys : ∀ k ∈ pmKeys upd, k ∈ schemaFields nd0.type)
    (hnd : (pmKeys upd).Nodup)
    (hok : update_node db node_id upd now = Except.ok (db', nd)) :
    pmGet nd.properties "modified_at" = some (Value.vdt now) ∧
    (∀ k, k ≠ "modified_at" →
      pmGet nd.properties k =
        (if k ∈ pmKeys upd then pmGet upd k else pmGet nd0.properties k)) ∧
    nd.id = nd0.id ∧ nd.type = nd0.type ∧
    db'.nodes = setPropsFirst db.nodes node_id nd.properties ∧
    db'.edges = db.edges := by
  unfold update_node at hok
  rw [hfind] at hok
  simp only [bind, Except.bind] at hok
  cases hval : validateProps nd0.type now
      (pmSet (pmUpdate nd0.properties upd) "modified_at" (Value.vdt now)) with
  | error e =>
      rw [hval] at hok
      cases hok
  | ok vp =>
      rw [hval] at hok
      cases hok
      have hma_mem : "modified_at" ∈ schemaFields nd0.type := by
        cases nd0.type <;> simp [schemaFields]
      refine ⟨?_, ?_, rfl, rfl, rfl, rfl⟩
      · exact validateProps_preserve hval "modified_at" hma_mem _
          (pmGet_pmSet_self _ _ _)
      · intro k hk
        have hmerged : pmGet (pmSet (pmUpdate nd0.properties upd) "modified_at"
            (Value.vdt now)) k =
            (if k ∈ pmKeys upd then pmGet upd k else pmGet nd0.properties k) := by
          rw [pmGet_pmSet_ne _ _ _ _ hk]
          exact pmUpdate_get upd nd0.properties hnd k
        by_cases hks : k ∈ schemaFields nd0.type
        · by_cases hku : k ∈ pmKeys upd
          · obtain ⟨v, hv⟩ := pmGet_mem_keys hku
            rw [if_pos hku] at hmerged ⊢
            rw [hv] at hmerged ⊢
            exact validateProps_preserve hval k hks v hmerged
          · rw [if_neg hku] at hmerged ⊢
            have hkold : k ∈ pmKeys nd0.properties := by rw [hshape]; exact hks
            obtain ⟨v, hv⟩ := pmGet_mem_keys hkold
            rw [hv] at hmerged ⊢
            exact validateProps_preserve hval k hks v hmerged
        · have hku : ¬ k ∈ pmKeys upd := fun hmem => hks (hkeys k hmem)
          rw [if_neg hku]
          have h1 : pmGet vp k = none := by
            apply pmGet_not_mem_keys
            rw [validateProps_keys hval]
            exact hks
          have h2 : pmGet nd0.properties k = none := by
            apply pmGet_not_mem_keys
            rw [hshape]
            exact hks
          show pmGet vp k = pmGet nd0.properties k
          rw [h1, h2]

/-- A stored, already-validated Task row. -/
def taskRow : NodeRec :=
  ⟨"t1", NodeType.task,
   [("description", Value.vstr "x"), ("status", Value.vstr "todo"),
    ("tags", Value.vlist []), ("created_at", Value.vdt 1),
    ("modified_at", Value.vdt 1), ("due_date", Value.vnull)]⟩

/-- The row `taskRow` after the witness update below. -/
def taskRowDone : NodeRec :=
  ⟨"t1", NodeType.task,
   [("description", Value.vstr "x"), ("status", Value.vstr "done"),
    ("tags", Value.vlist []), ("created_at", Value.vdt 1),
    ("modified_at", Value.vdt 5), ("due_date", Value.vnull)]⟩

theorem C3_update_node_merge_witness :
    pmGet taskRowDone.properties "modified_at" = some (Value.vdt 5) ∧
    pmGet taskRowDone.properties "description" =
      pmGet taskRow.properties "description" := by
  have h := C3_update_node_merge ⟨[taskRow], []⟩ "t1" [("status", Value.vstr "done")]
    5 taskRow ⟨[taskRowDone], []⟩ taskRowDone rfl rfl (by decide) (by decide) rfl
  refine ⟨h.1, ?_⟩
  have hd := h.2.1 "description" (by decide)
  rw [hd, if_neg (by decide)]

theorem checkReqStr_error {m : PropMap} {f : String} {e : Err}
    (h : checkReqStr m f = Except.error e) : e = Err.invalidProperties f := by
  unfold checkReqStr at h
  split at h <;> cases h <;> rfl

/-- A `Task` whose merged `status` lies outside the allowed enum fails
validation as a whole (on `status`, or earlier on `description`). -/
theorem validateProps_task_bad_status (now : Nat) {m : PropMap} {s : String}
    (hst : pmGet m "status" = some (Value.vstr s)) (hbad : ¬ s ∈ taskStatuses) :
    ∃ f, validateProps NodeType.task now m = Except.error (Err.invalidProperties f) := by
  have henum : checkEnum m "status" taskStatuses "todo" =
      Except.error (Err.invalidProperties "status") := by
    simp only [checkEnum, hst]
    rw [if_neg hbad]
  cases hd : checkReqStr m "description" with
  | error e =>
      refine ⟨"description", ?_⟩
      rw [checkReqStr_error hd] at hd
      simp [validateProps, bind, Except.bind, hd]
  | ok d =>
      refine ⟨"status", ?_⟩
      simp [validateProps, bind, Except.bind, hd, henum]

/-- C4: a partial update whose merged result fails the per-type schema (in
particular, a Task `status` outside the allowed enum) makes `update_node`
raise a validation error, and the store — hence the stored node — is exactly
as before: nothing is partially persisted. -/
theorem C4_update_node_validation_error (db : DB) (node_id : String)
    (upd : PropMap) (now : Nat) (nd0 : NodeRec)
    (hfind : db.nodes.find? (fun n => n.id == node_id) = some nd0) :
    (∀ e, validateProps nd0.type now
        (pmSet (pmUpdate nd0.properties upd) "modified_at" (Value.vdt now)) =
          Except.error e →
      update_node db node_id upd now = Except.error e ∧
      applyOp db (Op.updateNode node_id upd now) = db) ∧
    (∀ s, nd0.type = NodeType.task → (pmKeys upd).Nodup →
      pmGet upd "status" = some (Value.vstr s) → ¬ s ∈ taskStatuses →
      ∃ f, update_node db node_id upd now =
          Except.error (Err.invalidProperties f) ∧
        applyOp db (Op.updateNode node_id upd now) = db) := by
  have hgen : ∀ e, validateProps nd0.type now
      (pmSet (pmUpdate nd0.properties upd) "modified_at" (Value.vdt now)) =
        Except.error e →
      update_node db node_id upd now = Except.error e := by
    intro e he
    unfold update_node
    rw [hfind]
    simp only [bind, Except.bind, he]
  refine ⟨fun e he => ⟨hgen e he, ?_⟩, ?_⟩
  · simp only [applyOp, hgen e he]
  · intro s htype hnd hst hbad
    have hmerged : pmGet (pmSet (pmUpdate nd0.properties upd) "modified_at"
        (Value.vdt now)) "status" = some (Value.vstr s) := by
      rw [pmGet_pmSet_ne _ _ _ _ (by decide), pmUpdate_get upd nd0.properties hnd,
        if_pos (pmGet_some_mem_keys hst)]
      exact hst
    obtain ⟨f, hf⟩ := validateProps_task_bad_status now hmerged hbad
    rw [htype] at hgen
    refine ⟨f, hgen _ hf, ?_⟩
    simp only [applyOp, hgen _ hf]

theorem C4_update_node_validation_error_witness :
    applyOp ⟨[taskRow], []⟩
      (Op.updateNode "t1" [("status", Value.vstr "bogus")] 5) = ⟨[taskRow], []⟩ := by
  obtain ⟨f, hf, happ⟩ :=
    (C4_update_node_validation_error ⟨[taskRow], []⟩ "t1"
      [("status", Value.vstr "bogus")] 5 taskRow rfl).2 "bogus" rfl (by decide)
      rfl (by decide)
  exact happ

/-- C10: property keys outside the per-type schema are silently discarded by
validation: validation ignores unknown top-level keys entirely (so
`create_node` and `update_node` accept them without error), and the persisted
properties hold exactly the declared fields, so an unknown key never appears
in the stored node. -/
theorem C10_unknown_keys_discarded :
    (∀ (t : NodeType) (now : Nat) (m vp : PropMap),
      validateProps t now m = Except.ok vp → pmKeys vp = schemaFields t) ∧
    (∀ (t : NodeType) (now : Nat) (m : PropMap) (k : String) (v : Value),
      ¬ k ∈ schemaFields t →
      validateProps t now (pmSet m k v) = validateProps t now m) ∧
    (∀ (db : DB) (newId : String) (t : NodeType) (m : PropMap) (now : Nat)
        (db' : DB) (nd : NodeRec) (k : String),
      create_node db newId t m now = Except.ok (db', nd) →
      ¬ k ∈ schemaFields t → pmGet nd.properties k = none) ∧
    (∀ (db : DB) (node_id : String) (m : PropMap) (now : Nat)
        (db' : DB) (nd : NodeRec) (k : String),
      update_node db node_id m now = Except.ok (db', nd) →
      ¬ k ∈ schemaFields nd.type → pmGet nd.properties k = none) := by
  refine ⟨fun t now m vp h => validateProps_keys h, ?_, ?_, ?_⟩
  · intro t now m k v hk
    apply validateProps_congr
    intro f hf
    exact pmGet_pmSet_ne m k f v (fun he => hk (he ▸ hf))
  · intro db newId t m now db' nd k hok hk
    unfold create_node at hok
    cases hval : validateProps t now m with
    | error e =>
        rw [hval] at hok
        simp only [bind, Except.bind] at hok
        cases hok
    | ok vp =>
        rw [hval] at hok
        simp only [bind, Except.bind] at hok
        cases hok
        apply pmGet_not_mem_keys
        rw [validateProps_keys hval]
        exact hk
  · intro db node_id m now db' nd k hok hk
    unfold update_node at hok
    cases hfind : db.nodes.find? (fun n => n.id == node_id) with
    | none =>
        rw [hfind] at hok
        cases hok
    | some nd0 =>
        rw [hfind] at hok
        simp only [bind, Except.bind] at hok
        cases hval : validateProps nd0.type now
            (pmSet (pmUpdate nd0.properties m) "modified_at" (Value.vdt now)) with
        | error e =>
            rw [hval] at hok
            cases hok
        | ok vp =>
            rw [hval] at hok
            cases hok
            apply pmGet_not_mem_keys
            rw [validateProps_keys hval]
            exact hk

/-- The row persisted by the witness creation below: the unknown
`favorite_color` key is absent. -/
def personRowBob : NodeRec :=
  ⟨"p1", NodeType.person,
   [("name", Value.vstr "Bob"), ("tags", Value.vlist []),
    ("metadata", Value.vmap []), ("created_at", Value.vdt 3),
    ("modified_at", Value.vdt 3)]⟩

theorem C10_unknown_keys_discarded_witness :
    pmGet personRowBob.properties "favorite_color" = none := by
  exact C10_unknown_keys_discarded.2.2.1 emptyDB "p1" NodeType.person
    [("name", Value.vstr "Bob"), ("favorite_color", Value.vstr "red")] 3
    ⟨[personRowBob], []⟩ personRowBob "favorite_color" rfl (by decide)

/-- C9: `get_node_edges` returns exactly the edges with the node as source
for direction `outgoing`, exactly those with the node as target for
`incoming`, and the union of both when the direction is omitted. -/
theorem C9_get_node_edges_directions (db : DB) (node_id : String) :
    (∀ e, e ∈ get_node_edges db node_id (some "outgoing") ↔
      e ∈ db.edges ∧ e.source_id = node_id) ∧
    (∀ e, e ∈ get_node_edges db node_id (some "incoming") ↔
      e ∈ db.edges ∧ e.target_id = node_id) ∧
    (∀ e, e ∈ get_node_edges db node_id none ↔
      e ∈ db.edges ∧ (e.source_id = node_id ∨ e.target_id = node_id)) := by
  refine ⟨?_, ?_, ?_⟩ <;> intro e <;> simp [get_node_edges, List.mem_filter]

theorem C9_get_node_edges_directions_witness :
    (⟨"e1", "a", "b", "l"⟩ : EdgeRec) ∈
      get_node_edges ⟨[], [⟨"e1", "a", "b", "l"⟩]⟩ "a" (some "outgoing") := by
  exact ((C9_get_node_edges_directions ⟨[], [⟨"e1", "a", "b", "l"⟩]⟩ "a").1
    ⟨"e1", "a", "b", "l"⟩).mpr ⟨List.mem_cons_self _ _, rfl⟩

/-- The Note row hydrated in the semantic-search bug demonstration. -/
def noteRow : NodeRec :=
  ⟨"note_1", NodeType.note,
   [("title", Value.vstr "Test Note"), ("content", Value.vstr "Content"),
    ("tags", Value.vlist []), ("created_at", Value.vdt 1),
    ("modified_at", Value.vdt 1)]⟩

/-- C8: the claim says `semantic_search` hydrates the ranked ids in order,
silently dropping dead ids.  The code at `shared.py` line 189 subscripts the
vector store's return value with the string key `"ids"`, but
`VectorStore.semantic_search` already returns the flat id list
(`results["ids"][0]`, `vector_store.py` line 152), so every non-empty result
raises a `TypeError` instead of being hydrated; the hydration tail itself
(lines 192-198) would behave as claimed if handed the flat list, as it is in
the repository's own unit tests. -/
theorem C8_semantic_search_type_error :
    shared_semantic_search ⟨[noteRow], []⟩ ["note_1"] = Except.error Err.typeError ∧
    hydrateRanked ⟨[noteRow], []⟩ ["note_1"] = [noteRow] ∧
    (∀ db : DB, ∀ rankedIds : List String, rankedIds ≠ [] →
      shared_semantic_search db rankedIds = Except.error Err.typeError) ∧
    (∀ db : DB, ∀ ids : List String,
      hydrateRanked db ids =
        ids.filterMap (fun i => (get_nodes_by_ids db ids).find? (fun n => n.id == i))) := by
  refine ⟨rfl, rfl, ?_, fun db ids => rfl⟩
  intro db rankedIds hne
  unfold shared_semantic_search vectorStoreSemanticSearch
  cases rankedIds with
  | nil => exact absurd rfl hne
  | cons a l => rfl

/-- C5: every node returned by `search_nodes` satisfies each filter that was
supplied (Python truthiness: a `None`/empty argument supplies no filter) —
type equality, tag-list intersection with the supplied tags (OR across tags),
and the free-text condition — so the three filters compose as AND. -/
theorem C5_search_nodes_and_composition (db : DB) (q : Option String)
    (t : Option NodeType) (tags : Option (List String)) (n : NodeRec)
    (hn : n ∈ search_nodes db q t tags) :
    (∀ t0, t = some t0 → n.type = t0) ∧
    (∀ ts, tags = some ts → ts ≠ [] → ∃ tg ∈ ts, tg ∈ tagsOf n) ∧
    (∀ q0, q = some q0 → q0 ≠ "" → matchesQuery (strLower q0) n = true) := by
  have hstep : n ∈ searchTagged db t tags ∧
      (∀ q0, q = some q0 → q0 ≠ "" → matchesQuery (strLower q0) n = true) := by
    unfold search_nodes at hn
    by_cases hg : optStrGiven q = true
    · rw [if_pos hg] at hn
      have hf := List.mem_filter.mp hn
      refine ⟨hf.1, ?_⟩
      intro q1 hq1 _
      rw [hq1] at hf
      simpa using hf.2
    · rw [if_neg hg] at hn
      refine ⟨hn, ?_⟩
      intro q1 hq1 hne
      rw [hq1] at hg
      simp [optStrGiven, hne] at hg
  have hstep2 : n ∈ searchBase db t ∧
      (∀ ts, tags = some ts → ts ≠ [] → ∃ tg ∈ ts, tg ∈ tagsOf n) := by
    have hm := hstep.1
    unfold searchTagged at hm
    by_cases hg : optListGiven tags = true
    · rw [if_pos hg] at hm
      have hf := List.mem_filter.mp hm
      refine ⟨hf.1, ?_⟩
      intro ts hts _
      have h2 := hf.2
      rw [hts] at h2
      simp only [Option.getD_some] at h2
      obtain ⟨tg, htg, hmem⟩ := List.any_eq_true.mp h2
      exact ⟨tg, htg, by simpa using hmem⟩
    · rw [if_neg hg] at hm
      refine ⟨hm, ?_⟩
      intro ts hts hne
      rw [hts] at hg
      simp [optListGiven, hne] at hg
  refine ⟨?_, hstep2.2, hstep.2⟩
  intro t0 ht
  have hb := hstep2.1
  unfold searchBase at hb
  rw [ht] at hb
  have hf := List.mem_filter.mp hb
  simpa using hf.2

/-- A Note row about apples, tagged `fruit`. -/
def appleNote : NodeRec :=
  ⟨"n1", NodeType.note,
   [("title", Value.vstr "Apple pie"), ("content", Value.vstr "recipe"),
    ("tags", Value.vlist ["fruit"]), ("created_at", Value.vdt 1),
    ("modified_at", Value.vdt 1)]⟩

theorem C5_search_nodes_and_composition_witness :
    ∃ tg ∈ ["fruit"], tg ∈ tagsOf appleNote := by
  have hs : search_nodes ⟨[appleNote], []⟩ (some "apple") none (some ["fruit"]) =
      [appleNote] := rfl
  have h := C5_search_nodes_and_composition ⟨[appleNote], []⟩ (some "apple") none
    (some ["fruit"]) appleNote (by rw [hs]; exact List.mem_cons_self _ _)
  exact h.2.1 ["fruit"] rfl (by decide)

/-- The free-text condition as the specification words it: a lower-cased
substring match against the type-specific fields, case-insensitive for every
field — including the Project `description`. -/
def matchesQuerySpec (q : String) (n : NodeRec) : Bool :=
  match n.type with
  | NodeType.task => pyIn q (strLower (strField n "description"))
  | NodeType.note =>
      pyIn q (strLower (strField n "title")) || pyIn q (strLower (strField n "content"))
  | NodeType.person => pyIn q (strLower (strField n "name"))
  | NodeType.project =>
      pyIn q (strLower (strField n "name")) || pyIn q (strLower (strField n "description"))

/-- A stored Project row whose description contains a capitalised word. -/
def appleProject : NodeRec :=
  ⟨"pr1", NodeType.project,
   [("name", Value.vstr "p"), ("description", Value.vstr "An Apple tree"),
    ("tags", Value.vlist []), ("status", Value.vstr "active"),
    ("created_at", Value.vdt 1), ("modified_at", Value.vdt 1)]⟩

/-- C6: the claim says the free-text match is case-insensitive for every
node type including the Project description.  The code lower-cases the query
and every other field, but compares the Project `description` raw
(`crud.py` line 312 omits `.lower()`), so the lowered query misses
capitalised text in that one field: searching "Apple" drops a Project whose
description contains "Apple", though the spec's matcher keeps it. -/
theorem C6_search_project_description_case :
    search_nodes ⟨[appleProject], []⟩ (some "Apple") none none = [] ∧
    matchesQuerySpec (strLower "Apple") appleProject = true ∧
    matchesQuery (strLower "Apple") appleProject = false ∧
    (∀ db q n, n ∈ search_nodes db (some q) none none → q ≠ "" →
      matchesQuery (strLower q) n = true) := by
  refine ⟨rfl, rfl, rfl, ?_⟩
  intro db q n hn hq
  exact (C5_search_nodes_and_composition db (some q) none none n hn).2.2 q rfl hq

theorem C6_search_project_description_case_witness :
    matchesQuery (strLower "p") appleProject = true := by
  have h := C6_search_project_description_case.2.2.2 ⟨[appleProject], []⟩ "p"
    appleProject
  exact h (by rw [show search_nodes ⟨[appleProject], []⟩ (some "p") none none =
    [appleProject] from rfl]; exact List.mem_cons_self _ _) (by decide)

/-! ## Tag-sorting lemmas -/

theorem charListLe_total : ∀ as bs : List Char,
    charListLe as bs = true ∨ charListLe bs as = true
  | [], _ => Or.inl rfl
  | _ :: _, [] => Or.inr rfl
  | a :: as, b :: bs => by
      unfold charListLe
      by_cases hab : a.toNat < b.toNat
      · left
        rw [if_pos hab]
      · by_cases hba : b.toNat < a.toNat
        · right
          rw [if_pos hba]
        · rw [if_neg hab, if_neg hba, if_neg hba, if_neg hab]
          exact charListLe_total as bs

theorem charListLe_trans : ∀ as bs cs : List Char,
    charListLe as bs = true → charListLe bs cs = true → charListLe as cs = true
  | [], _, _ => fun _ _ => rfl
  | a :: as, [], _ => fun h _ => by cases h
  | a :: as, b :: bs, [] => fun _ h => by cases h
  | a :: as, b :: bs, c :: cs => by
      intro h1 h2
      unfold charListLe at h1 h2 ⊢
      by_cases hab : a.toNat < b.toNat <;> by_cases hbc : b.toNat < c.toNat
      · rw [if_pos (by omega)]
      · rw [if_neg hbc] at h2
        by_cases hcb : c.toNat < b.toNat
        · rw [if_pos hcb] at h2
          cases h2
        · rw [if_neg hcb] at h2
          have : b.toNat = c.toNat := by omega
          rw [if_pos (by omega)]
      · rw [if_neg hab] at h1
        by_cases hba : b.toNat < a.toNat
        · rw [if_pos hba] at h1
          cases h1
        · rw [if_neg hba] at h1
          rw [if_pos (by omega)]
      · rw [if_neg hab] at h1
        by_cases hba : b.toNat < a.toNat
        · rw [if_pos hba] at h1
          cases h1
        · rw [if_neg hba] at h1
          rw [if_neg hbc] at h2
          by_cases hcb : c.toNat < b.toNat
          · rw [if_pos hcb] at h2
            cases h2
          · rw [if_neg hcb] at h2
            rw [if_neg (by omega), if_neg (by omega)]
            exact charListLe_trans as bs cs h1 h2

theorem strLeB_total (a b : String) : strLeB a b = true ∨ strLeB b a = true :=
  charListLe_total a.data b.data

theorem strLeB_trans {a b c : String} (h1 : strLeB a b = true)
    (h2 : strLeB b c = true) : strLeB a c = true :=
  charListLe_trans a.data b.data c.data h1 h2

theorem mem_insertTag {x a : String} : ∀ {l : List String},
    x ∈ insertTag a l ↔ x = a ∨ x ∈ l := by
  intro l
  induction l with
  | nil => simp [insertTag]
  | cons b l ih =>
      unfold insertTag
      by_cases h : strLeB a b = true
      · rw [if_pos h]
        simp
      · rw [if_neg h]
        simp only [List.mem_cons, ih]
        tauto

theorem pairwise_insertTag {a : String} : ∀ {l : List String},
    List.Pairwise (fun x y => strLeB x y = true) l →
    List.Pairwise (fun x y => strLeB x y = true) (insertTag a l) := by
  intro l
  induction l with
  | nil =>
      intro _
      simp [insertTag]
  | cons b l ih =>
      intro hp
      have hp' := List.pairwise_cons.mp hp
      unfold insertTag
      by_cases h : strLeB a b = true
      · rw [if_pos h]
        refine List.pairwise_cons.mpr ⟨?_, hp⟩
        intro x hx
        rcases List.mem_cons.mp hx with rfl | hx'
        · exact h
        · exact strLeB_trans h (hp'.1 x hx')
      · rw [if_neg h]
        refine List.pairwise_cons.mpr ⟨?_, ih hp'.2⟩
        intro x hx
        rcases mem_insertTag.mp hx with rfl | hx'
        · rcases strLeB_total x b with h1 | h1
          · exact absurd h1 h
          · exact h1
        · exact hp'.1 x hx'

theorem nodup_insertTag {a : String} : ∀ {l : List String},
    l.Nodup → ¬ a ∈ l → (insertTag a l).Nodup := by
  intro l
  induction l with
  | nil =>
      intro _ _
      simp [insertTag]
  | cons b l ih =>
      intro hnd ha
      have hnd' := List.nodup_cons.mp hnd
      simp only [List.mem_cons, not_or] at ha
      unfold insertTag
      by_cases h : strLeB a b = true
      · rw [if_pos h]
        refine List.nodup_cons.mpr ⟨?_, hnd⟩
        simp only [List.mem_cons, not_or]
        exact ha
      · rw [if_neg h]
        refine List.nodup_cons.mpr ⟨?_, ih hnd'.2 ha.2⟩
        intro hb
        rcases mem_insertTag.mp hb with rfl | hb'
        · exact ha.1 rfl
        · exact hnd'.1 hb'

theorem mem_dedupTags {x : String} : ∀ {l : List String},
    x ∈ dedupTags l ↔ x ∈ l := by
  intro l
  induction l with
  | nil => simp [dedupTags]
  | cons a l ih =>
      unfold dedupTags
      by_cases h : a ∈ l
      · rw [if_pos h]
        rw [ih]
        constructor
        · exact List.mem_cons_of_mem _
        · intro hx
          rcases List.mem_cons.mp hx with rfl | hx'
          · exact h
          · exact hx'
      · rw [if_neg h]
        simp [ih]

theorem nodup_dedupTags : ∀ {l : List String}, (dedupTags l).Nodup := by
  intro l
  induction l with
  | nil => simp [dedupTags]
  | cons a l ih =>
      unfold dedupTags
      by_cases h : a ∈ l
      · rw [if_pos h]
        exact ih
      · rw [if_neg h]
        refine List.nodup_cons.mpr ⟨?_, ih⟩
        rw [mem_dedupTags]
        exact h

/-- `sortDedup` yields a duplicate-free, lexicographically sorted list with
exactly the elements of its input. -/
theorem sortDedup_spec (xs : List String) :
    (sortDedup xs).Nodup ∧
    List.Pairwise (fun a b => strLeB a b = true) (sortDedup xs) ∧
    (∀ s, s ∈ sortDedup xs ↔ s ∈ xs) := by
  have key : ∀ l : List String, l.Nodup →
      (l.foldr insertTag []).Nodup ∧
      List.Pairwise (fun a b => strLeB a b = true) (l.foldr insertTag []) ∧
      (∀ s, s ∈ l.foldr insertTag [] ↔ s ∈ l) := by
    intro l
    induction l with
    | nil => exact fun _ => ⟨List.nodup_nil, List.Pairwise.nil, by simp⟩
    | cons a l ih =>
        intro hnd
        have hnd' := List.nodup_cons.mp hnd
        obtain ⟨h1, h2, h3⟩ := ih hnd'.2
        refine ⟨?_, ?_, ?_⟩
        · exact nodup_insertTag h1 (fun hm => hnd'.1 ((h3 a).mp hm))
        · exact pairwise_insertTag h2
        · intro s
          simp only [List.foldr_cons, mem_insertTag, h3, List.mem_cons]
  obtain ⟨h1, h2, h3⟩ := key (dedupTags xs) nodup_dedupTags
  refine ⟨h1, h2, ?_⟩
  intro s
  unfold sortDedup
  rw [h3 s, mem_dedupTags]

/-- How one stored row relates to its successor across `rename_tag`: a row
that fails the loop condition (SQL pre-selection plus the `old_tag in tags`
re-check) is untouched; a row that passes it keeps id, type and every other
property, has its tag list rewritten (replace, deduplicate, sort), and is
reported among the updated rows. -/
def renameRel (oldT newT : String) (upd : List NodeRec) (n n' : NodeRec) : Prop :=
  (¬ renameSel oldT n → n' = n) ∧
  (renameSel oldT n →
    n'.id = n.id ∧ n'.type = n.type ∧ n' ∈ upd ∧
    tagsOf n' = sortDedup ((tagsOf n).map (fun t => if t = oldT then newT else t)) ∧
    (∀ k, k ≠ "tags" → pmGet n'.properties k = pmGet n.properties k))

theorem tags_mem_schema (t : NodeType) : "tags" ∈ schemaFields t := by
  cases t <;> simp [schemaFields]

theorem rename_tag_go_spec (oldT newT : String) (now : Nat) :
    ∀ (ns ns' upd : List NodeRec),
      (∀ n ∈ ns, pmKeys n.properties = schemaFields n.type) →
      rename_tag_go oldT newT now ns = Except.ok (ns', upd) →
      List.Forall₂ (renameRel oldT newT upd) ns ns' ∧
      (∀ n' ∈ upd, ∃ n ∈ ns, renameSel oldT n ∧ n'.id = n.id ∧
        tagsOf n' = sortDedup ((tagsOf n).map (fun t => if t = oldT then newT else t))) := by
  intro ns
  induction ns with
  | nil =>
      intro ns' upd _ h
      simp only [rename_tag_go] at h
      cases h
      exact ⟨List.Forall₂.nil, fun n' hn' => absurd hn' (List.not_mem_nil n')⟩
  | cons a l ih =>
      intro ns' upd hshape h
      simp only [rename_tag_go] at h
      by_cases ha : renameSel oldT a
      · rw [if_pos ha] at h
        simp only [bind, Except.bind] at h
        cases hv : validateProps a.type now
            (pmSet a.properties "tags"
              (Value.vlist (sortDedup ((tagsOf a).map
                (fun t => if t = oldT then newT else t))))) with
        | error e =>
            rw [hv] at h
            cases h
        | ok vp =>
            rw [hv] at h
            cases hgo : rename_tag_go oldT newT now l with
            | error e =>
                rw [hgo] at h
                cases h
            | ok r =>
                rw [hgo] at h
                cases h
                obtain ⟨hfa, hupd⟩ := ih r.1 r.2
                  (fun n hn => hshape n (List.mem_cons_of_mem _ hn)) (by rw [hgo])
                have hsh := hshape a (List.mem_cons_self _ _)
                have htags : tagsOf { a with properties := vp } =
                    sortDedup ((tagsOf a).map (fun t => if t = oldT then newT else t)) := by
                  have hget : pmGet vp "tags" = some (Value.vlist
                      (sortDedup ((tagsOf a).map (fun t => if t = oldT then newT else t)))) :=
                    validateProps_preserve hv "tags" (tags_mem_schema a.type) _
                      (pmGet_pmSet_self _ _ _)
                  simp only [tagsOf, hget]
                have hframe : ∀ k, k ≠ "tags" →
                    pmGet vp k = pmGet a.properties k := by
                  intro k hk
                  by_cases hks : k ∈ schemaFields a.type
                  · have hm : pmGet (pmSet a.properties "tags"
                        (Value.vlist (sortDedup ((tagsOf a).map
                          (fun t => if t = oldT then newT else t))))) k =
                        pmGet a.properties k := pmGet_pmSet_ne _ _ _ _ hk
                    have hkold : k ∈ pmKeys a.properties := by rw [hsh]; exact hks
                    obtain ⟨v, hvv⟩ := pmGet_mem_keys hkold
                    rw [hvv]
                    exact validateProps_preserve hv k hks v (by rw [hm]; exact hvv)
                  · have h1 : pmGet vp k = none := by
                      apply pmGet_not_mem_keys
                      rw [validateProps_keys hv]
                      exact hks
                    have h2 : pmGet a.properties k = none := by
                      apply pmGet_not_mem_keys
                      rw [hsh]
                      exact hks
                    rw [h1, h2]
                constructor
                · refine List.Forall₂.cons ⟨fun hna => absurd ha hna, fun _ => ?_⟩
                    (hfa.imp ?_)
                  · exact ⟨rfl, rfl, List.mem_cons_self _ _, htags, hframe⟩
                  · intro n n' hr
                    refine ⟨hr.1, fun hn => ?_⟩
                    obtain ⟨h1, h2, h3, h4, h5⟩ := hr.2 hn
                    exact ⟨h1, h2, List.mem_cons_of_mem _ h3, h4, h5⟩
                · intro n' hn'
                  rcases List.mem_cons.mp hn' with rfl | hn''
                  · exact ⟨a, List.mem_cons_self _ _, ha, rfl, htags⟩
                  · obtain ⟨n, hn, hrest⟩ := hupd n' hn''
                    exact ⟨n, List.mem_cons_of_mem _ hn, hrest⟩
      · rw [if_neg ha] at h
        simp only [bind, Except.bind] at h
        cases hgo : rename_tag_go oldT newT now l with
        | error e =>
            rw [hgo] at h
            cases h
        | ok r =>
            rw [hgo] at h
            cases h
            obtain ⟨hfa, hupd⟩ := ih r.1 r.2
              (fun n hn => hshape n (List.mem_cons_of_mem _ hn)) (by rw [hgo])
            constructor
            · exact List.Forall₂.cons ⟨fun _ => rfl, fun hn => absurd hn ha⟩ hfa
            · intro n' hn'
              obtain ⟨n, hn, hrest⟩ := hupd n' hn'
              exact ⟨n, List.mem_cons_of_mem _ hn, hrest⟩

/-! ## Substring reasoning for the SQL pre-selection -/

/-- `needle` occurs inside `hay`. -/
def containsStr (hay needle : String) : Prop := ∃ A B, hay = A ++ (needle ++ B)

theorem containsStr_refl (s : String) : containsStr s s := by
  refine ⟨"", "", ?_⟩
  apply String.ext
  simp [String.data_append]

theorem containsStr_append_left (x : String) {hay needle : String}
    (h : containsStr hay needle) : containsStr (x ++ hay) needle := by
  obtain ⟨A, B, rfl⟩ := h
  exact ⟨x ++ A, B, by rw [String.append_assoc]⟩

theorem containsStr_append_right (y : String) {hay needle : String}
    (h : containsStr hay needle) : containsStr (hay ++ y) needle := by
  obtain ⟨A, B, rfl⟩ := h
  refine ⟨A, B ++ y, ?_⟩
  rw [String.append_assoc, String.append_assoc]

theorem containsStr_trans {a b c : String} (h1 : containsStr a b)
    (h2 : containsStr b c) : containsStr a c := by
  obtain ⟨A, B, rfl⟩ := h1
  exact containsStr_append_left A (containsStr_append_right B h2)

/-- A genuine occurrence makes the Python substring test succeed. -/
theorem pyIn_of_containsStr {hay needle : String} (h : containsStr hay needle) :
    pyIn needle hay = true := by
  obtain ⟨A, B, rfl⟩ := h
  unfold pyIn
  apply List.any_eq_true.mpr
  refine ⟨A.length, ?_, ?_⟩
  · apply List.mem_range.mpr
    have : (A ++ (needle ++ B)).length = A.length + (needle.length + B.length) := by
      rw [String.length_append, String.length_append]
    omega
  · have hdata : (A ++ (needle ++ B)).data = A.data ++ (needle.data ++ B.data) := by
      rw [String.data_append, String.data_append]
    have hlen : A.length = A.data.length := rfl
    rw [hdata, hlen, List.drop_left, List.take_left]
    simp

/-- Characters that `json.dumps` renders as themselves: printable ASCII
other than the double-quote and the backslash. -/
def jsonLiteralChar (c : Char) : Bool :=
  if 32 ≤ c.toNat ∧ c.toNat < 127 ∧ c ≠ '"' ∧ c ≠ '\\' then true else false

/-- A string whose JSON rendering is the string itself between quotes. -/
def jsonLiteral (s : String) : Bool := s.data.all jsonLiteralChar

theorem jsonEscapeChar_literal {c : Char} (h : jsonLiteralChar c = true) :
    jsonEscapeChar c = [c] := by
  unfold jsonLiteralChar at h
  have hp : 32 ≤ c.toNat ∧ c.toNat < 127 ∧ c ≠ '"' ∧ c ≠ '\\' := by
    by_contra hq
    rw [if_neg hq] at h
    cases h
  obtain ⟨h1, h2, h3, h4⟩ := hp
  have hn : ∀ m : Nat, (Char.ofNat m).toNat = m → m < 32 → c ≠ Char.ofNat m := by
    intro m hm hlt he
    rw [he, hm] at h1
    omega
  unfold jsonEscapeChar
  rw [if_neg h3, if_neg h4, if_neg (hn 8 (by decide) (by omega)),
    if_neg (hn 9 (by decide) (by omega)), if_neg (hn 10 (by decide) (by omega)),
    if_neg (hn 12 (by decide) (by omega)), if_neg (hn 13 (by decide) (by omega)),
    if_neg (by omega)]

theorem join_map_singleton : ∀ l : List Char, (l.map (fun c => [c])).flatten = l
  | [] => rfl
  | c :: l => by
      simp only [List.map_cons, List.flatten_cons, List.singleton_append]
      rw [join_map_singleton l]

theorem jsonString_literal {s : String} (h : jsonLiteral s = true) :
    jsonString s = "\"" ++ s ++ "\"" := by
  unfold jsonString
  have hmap : s.data.map jsonEscapeChar = s.data.map (fun c => [c]) := by
    apply List.map_congr_left
    intro c hc
    exact jsonEscapeChar_literal (by
      have := List.all_eq_true.mp h c hc
      simpa using this)
  rw [hmap, join_map_singleton]

theorem pmGet_some_pair_mem {k : String} {v : Value} :
    ∀ {m : PropMap}, pmGet m k = some v → (k, v) ∈ m := by
  intro m
  induction m with
  | nil => intro h; cases h
  | cons a l ih =>
      intro h
      by_cases ha : a.1 = k
      · simp only [pmGet, if_pos ha] at h
        cases h
        have : (k, a.2) = a := by rw [← ha]
        rw [this]
        exact List.mem_cons_self _ _
      · simp only [pmGet, if_neg ha] at h
        exact List.mem_cons_of_mem _ (ih h)

theorem joinComma_split {x : String} : ∀ xs : List String,
    x ∈ xs → containsStr (joinComma xs) x
  | [], h => absurd h (List.not_mem_nil x)
  | [a], h => by
      have ha := List.mem_singleton.mp h
      rw [ha]
      exact containsStr_refl a
  | a :: b :: t, h => by
      show containsStr (a ++ ", " ++ joinComma (b :: t)) x
      rcases List.mem_cons.mp h with rfl | h'
      · exact containsStr_append_right _ (containsStr_append_right ", "
          (containsStr_refl x))
      · exact containsStr_append_left _ (joinComma_split (b :: t) h')

theorem entries_split {k : String} {v : Value} : ∀ m : List (String × Value),
    (k, v) ∈ m → containsStr (jsonEntries m) (jsonValue v)
  | [], h => absurd h (List.not_mem_nil _)
  | [(k0, v0)], h => by
      have h' := List.mem_singleton.mp h
      cases h'
      show containsStr (jsonString k ++ ": " ++ jsonValue v) (jsonValue v)
      exact containsStr_append_left _ (containsStr_refl _)
  | (k0, v0) :: p :: rest, h => by
      show containsStr
        (jsonString k0 ++ ": " ++ jsonValue v0 ++ ", " ++ jsonEntries (p :: rest))
        (jsonValue v)
      rcases List.mem_cons.mp h with heq | h'
      · cases heq
        exact containsStr_append_right _ (containsStr_append_right ", "
          (containsStr_append_left _ (containsStr_refl _)))
      · exact containsStr_append_left _ (entries_split (p :: rest) h')

/-- Completeness of the SQL pre-selection for literally-rendered tags: a row
whose tag list holds a tag that JSON renders without escaping is selected by
`LIKE '%"old_tag"%'`. -/
theorem likeSelected_of_mem_tags {oldT : String} {n : NodeRec}
    (hlit : jsonLiteral oldT = true) (hmem : oldT ∈ tagsOf n) :
    likeSelected oldT n.properties = true := by
  unfold tagsOf at hmem
  cases hget : pmGet n.properties "tags" with
  | none =>
      rw [hget] at hmem
      cases hmem
  | some v =>
      rw [hget] at hmem
      cases v with
      | vlist l =>
          have hpair : ("tags", Value.vlist l) ∈ n.properties :=
            pmGet_some_pair_mem hget
          have h1 : containsStr (jsonEntries n.properties)
              (jsonValue (Value.vlist l)) := entries_split _ hpair
          have h2 : containsStr (jsonValue (Value.vlist l)) (jsonString oldT) := by
            show containsStr ("[" ++ joinComma (l.map jsonString) ++ "]") _
            exact containsStr_append_right "]" (containsStr_append_left "["
              (joinComma_split _ (List.mem_map.mpr ⟨oldT, hmem, rfl⟩)))
          have h3 : containsStr (jsonRender n.properties) (jsonString oldT) := by
            unfold jsonRender
            exact containsStr_append_right "\x7d" (containsStr_append_left "\x7b"
              (containsStr_trans h1 h2))
          unfold likeSelected
          rw [← jsonString_literal hlit]
          exact pyIn_of_containsStr h3
      | vstr s => cases hmem
      | vmap m => cases hmem
      | vdt t => cases hmem
      | vnull => cases hmem

/-- The claim's view of one row across `rename_tag`, keyed only on whether
the tag list contains the old tag (what the amended claim asserts for tags
the pre-selection cannot miss). -/
def renameRelTag (oldT newT : String) (upd : List NodeRec) (n n' : NodeRec) : Prop :=
  (¬ oldT ∈ tagsOf n → n' = n) ∧
  (oldT ∈ tagsOf n →
    n'.id = n.id ∧ n'.type = n.type ∧ n' ∈ upd ∧
    tagsOf n' = sortDedup ((tagsOf n).map (fun t => if t = oldT then newT else t)) ∧
    (∀ k, k ≠ "tags" → pmGet n'.properties k = pmGet n.properties k))

/-- A stored Person row whose only tag needs JSON escaping: the SQL
pre-selection's pattern `%"a"b"%` never matches the rendered `"a\\"b"`, so
`rename_tag` skips the row. -/
def escTagPerson : NodeRec :=
  ⟨"p1", NodeType.person,
   [("name", Value.vstr "A"), ("tags", Value.vlist ["a\"b"]),
    ("metadata", Value.vmap []), ("created_at", Value.vdt 1),
    ("modified_at", Value.vdt 1)]⟩

/-- C7, counterexample to the claim as stated: the row's tag list contains
the old tag `a"b`, yet `rename_tag` leaves the store unchanged and returns
no modified row, because the tag's JSON rendering escapes the quote and the
SQL pre-selection never matches. -/
theorem C7_rename_tag_counterexample :
    "a\"b" ∈ tagsOf escTagPerson ∧
    rename_tag ⟨[escTagPerson], []⟩ "a\"b" "x" 1 =
      Except.ok (⟨[escTagPerson], []⟩, []) :=
  ⟨by decide, rfl⟩

/-- C7, amended: for an old tag whose JSON rendering is literal (printable
ASCII without quote or backslash — when the `LIKE` pre-selection provably
selects every row holding it), `rename_tag(old, new)` modifies exactly the
rows whose tag list contains `old` — replacing `old` by `new`, deduplicating
(a row already holding `new` keeps one copy) and sorting the list
lexicographically — returns exactly the modified rows, and leaves every
other row untouched and out of the return value.  Stored rows are assumed to
have the validated shape the engine maintains. -/
theorem C7_rename_tag (db : DB) (oldT newT : String) (now : Nat) (db' : DB)
    (upd : List NodeRec)
    (hshape : ∀ n ∈ db.nodes, pmKeys n.properties = schemaFields n.type)
    (hlit : jsonLiteral oldT = true)
    (hok : rename_tag db oldT newT now = Except.ok (db', upd)) :
    db'.edges = db.edges ∧
    List.Forall₂ (renameRelTag oldT newT upd) db.nodes db'.nodes ∧
    (∀ n' ∈ upd, ∃ n ∈ db.nodes, oldT ∈ tagsOf n ∧ n'.id = n.id ∧
      tagsOf n' = sortDedup ((tagsOf n).map (fun t => if t = oldT then newT else t))) ∧
    (∀ xs : List String, (sortDedup xs).Nodup ∧
      List.Pairwise (fun a b => strLeB a b = true) (sortDedup xs) ∧
      (∀ s, s ∈ sortDedup xs ↔ s ∈ xs)) := by
  unfold rename_tag at hok
  cases hgo : rename_tag_go oldT newT now db.nodes with
  | error e =>
      rw [hgo] at hok
      simp only [bind, Except.bind] at hok
      cases hok
  | ok r =>
      rw [hgo] at hok
      simp only [bind, Except.bind] at hok
      cases hok
      obtain ⟨hfa, hupd⟩ := rename_tag_go_spec oldT newT now db.nodes r.1 r.2 hshape
        (by rw [hgo])
      refine ⟨rfl, ?_, ?_, sortDedup_spec⟩
      · refine hfa.imp ?_
        intro n n' hr
        constructor
        · intro hnot
          exact hr.1 (fun hsel => hnot hsel.2)
        · intro htag
          exact hr.2 ⟨likeSelected_of_mem_tags hlit htag, htag⟩
      · intro n' hn'
        obtain ⟨n, hn, hsel, hrest⟩ := hupd n' hn'
        exact ⟨n, hn, hsel.2, hrest⟩

/-- A stored Person row tagged `old` and `existing` (the spec's dedup test). -/
def tagPerson : NodeRec :=
  ⟨"p1", NodeType.person,
   [("name", Value.vstr "A"), ("tags", Value.vlist ["old", "existing"]),
    ("metadata", Value.vmap []), ("created_at", Value.vdt 1),
    ("modified_at", Value.vdt 1)]⟩

/-- `tagPerson` after `rename_tag("old", "existing")`: tags collapse to
exactly `["existing"]`. -/
def tagPersonAfter : NodeRec :=
  ⟨"p1", NodeType.person,
   [("name", Value.vstr "A"), ("tags", Value.vlist ["existing"]),
    ("metadata", Value.vmap []), ("created_at", Value.vdt 1),
    ("modified_at", Value.vdt 1)]⟩

theorem C7_rename_tag_witness :
    tagsOf tagPersonAfter =
      sortDedup ((tagsOf tagPerson).map
        (fun t => if t = "old" then "existing" else t)) ∧
    tagsOf tagPersonAfter = ["existing"] := by
  have h := C7_rename_tag ⟨[tagPerson], []⟩ "old" "existing" 1
    ⟨[tagPersonAfter], []⟩ [tagPersonAfter] (by decide) (by decide) rfl
  obtain ⟨n, hn, hold, hid, htags⟩ := h.2.2.1 tagPersonAfter (List.mem_cons_self _ _)
  rcases List.mem_cons.mp hn with rfl | hn'
  · exact ⟨htags, rfl⟩
  · cases hn'
